import Mathlib

/-!
# Fork-choice store utilities (`cl/phase1/forkchoice/utils.go`)

A shallow embedding of the checkpoint bookkeeping, the finalization prune, the
ancestor walk and the checkpoint-state cache of the beacon-chain fork-choice
store, together with the properties the specification states about them.

Conventions of the embedding:

* `uint64` values are natural numbers; products that can leave 64 bits are
  reduced modulo `2 ^ 64` where the Go code would wrap.
* A 32-byte hash is the natural number it encodes; the zero hash is `0`.
* Go maps are association lists with pairwise distinct keys (`AList`); a
  `range` loop that deletes the key it is visiting is a fold over the keys
  present when the loop starts.
* The block/state graph and the slot-processing machine are interfaces of other
  packages; they are records of functions, and every theorem holds for every
  implementation of them.
* Loops that need not terminate take a fuel argument that bounds the number of
  iterations; `none` means that the fuel ran out.
-/

namespace Forkchoice

/-! ## Data model -/

/-- A block root (`libcommon.Hash`). -/
abbrev Hash := Nat

/-- The value of `libcommon.Hash{}`. -/
def zeroHash : Hash := 0

/-- Modulus of `uint64` arithmetic. -/
def u64 : Nat := 2 ^ 64

/-- The value `solid.Checkpoint`: an epoch and a block root. -/
structure Checkpoint where
  epoch : Nat
  blockRoot : Hash
  deriving DecidableEq, Repr

/-- Modelled from the spec: the block header type is declared outside the
excerpt; the spec gives `BlockHeader {slot, parentRoot, stateRoot, bodyRoot}`.
The code reads `Slot` and `ParentRoot`. -/
structure BeaconBlockHeader where
  slot : Nat
  parentRoot : Hash
  stateRoot : Hash
  bodyRoot : Hash
  deriving DecidableEq, Repr

/-- Modelled from the spec: the fork node stored in the children map is declared
outside the excerpt; the spec gives `ForkNode {blockRoot, parentSlot, weight,
children}`. The code reads `parentSlot`. -/
structure ForkNode where
  blockRoot : Hash
  parentSlot : Nat
  weight : Nat
  children : List Hash
  deriving DecidableEq, Repr

/-- Modelled from the spec: a validator record, declared outside the excerpt and
only copied by the code. -/
structure Validator where
  publicKey : Nat
  effectiveBalance : Nat
  deriving DecidableEq, Repr

/-- Modelled from the spec: the fork information of a beacon state, declared
outside the excerpt and only copied by the code. -/
structure Fork where
  previousVersion : Nat
  currentVersion : Nat
  epoch : Nat
  deriving DecidableEq, Repr

/-- The configuration constants the store reads (`f.beaconCfg`). -/
structure BeaconChainConfig where
  GenesisSlot : Nat
  SecondsPerSlot : Nat
  SlotsPerEpoch : Nat
  deriving DecidableEq, Repr

/-- Modelled from the spec: the beacon state type is declared outside the
excerpt. The fields are the values `getCheckpointState` reads from it: `Slot()`,
the validators (`ValidatorLength` and `ForEachValidator`), `RandaoMixes()`,
`GenesisValidatorsRoot()`, `Fork()`, `GetTotalActiveBalance()` and
`state.Epoch`. -/
structure BeaconState where
  slot : Nat
  validators : List Validator
  randaoMixes : List Hash
  genesisValidatorsRoot : Hash
  fork : Fork
  totalActiveBalance : Nat
  epoch : Nat
  deriving DecidableEq, Repr

/-- Modelled from the spec: the cached snapshot, declared outside the excerpt;
the spec gives `CheckpointState {validators, randaoMixes, genesisValidatorsRoot,
forkInfo, totalActiveBalance, epoch}`. The first two fields are the remaining
arguments the code passes to `newCheckpointState`. -/
structure checkpointState where
  beaconConfig : BeaconChainConfig
  anchorPublicKeys : List Nat
  validators : List Validator
  randaoMixes : List Hash
  genesisValidatorsRoot : Hash
  fork : Fork
  totalActiveBalance : Nat
  epoch : Nat
  deriving DecidableEq, Repr

/-- Modelled from the spec: `newCheckpointState` is defined outside the excerpt;
it records its arguments in the snapshot. -/
def newCheckpointState (cfg : BeaconChainConfig) (anchorPublicKeys : List Nat)
    (validators : List Validator) (mixes : List Hash) (genesisValidatorsRoot : Hash)
    (fork : Fork) (totalActiveBalance : Nat) (epoch : Nat) : checkpointState :=
  { beaconConfig := cfg
    anchorPublicKeys := anchorPublicKeys
    validators := validators
    randaoMixes := mixes
    genesisValidatorsRoot := genesisValidatorsRoot
    fork := fork
    totalActiveBalance := totalActiveBalance
    epoch := epoch }

/-- The interface of the block/state graph (`f.forkGraph`) over a graph state
`G`. `GetState` may update the graph's own caches, so it returns the graph
too; its result is an error, a nil state or a state. -/
structure ForkGraph (G : Type) where
  GetHeader : G → Hash → Option BeaconBlockHeader
  GetState : G → Hash → Bool → G × Except String (Option BeaconState)
  Prune : G → Nat → G

/-- The slot-processing entry point of the transition machine
(`transition.DefaultMachine.ProcessSlots`): the advanced state or an error. -/
abbrev SlotProcessor := BeaconState → Nat → Except String BeaconState

/-- The fields of `ForkChoiceStore` that `utils.go` reads or writes. -/
structure ForkChoiceStore (G : Type) where
  time : Nat
  genesisTime : Nat
  beaconCfg : BeaconChainConfig
  anchorPublicKeys : List Nat
  justifiedCheckpoint : Checkpoint
  finalizedCheckpoint : Checkpoint
  unrealizedJustifiedCheckpoint : Checkpoint
  unrealizedFinalizedCheckpoint : Checkpoint
  checkpointStates : AList (fun _ : Checkpoint => checkpointState)
  childrens : AList (fun _ : Hash => ForkNode)
  headSet : Finset Hash
  forkGraph : G

variable {G : Type}

/-! ## Slot arithmetic -/

/-- The method `Slot`: current slot from the store's clock, in `uint64`
arithmetic. Division by a zero `SecondsPerSlot` panics in Go: `none`. -/
def Slot (f : ForkChoiceStore G) : Option Nat :=
  if f.beaconCfg.SecondsPerSlot = 0 then none
  else
    some ((f.beaconCfg.GenesisSlot
      + ((f.time % u64 + u64 - f.genesisTime % u64) % u64) / f.beaconCfg.SecondsPerSlot) % u64)

/-- The method `computeEpochAtSlot`; division by a zero `SlotsPerEpoch`
panics in Go: `none`. -/
def computeEpochAtSlot (f : ForkChoiceStore G) (slot : Nat) : Option Nat :=
  if f.beaconCfg.SlotsPerEpoch = 0 then none else some (slot / f.beaconCfg.SlotsPerEpoch)

/-- The method `computeStartSlotAtEpoch`: the `uint64` product
`epoch * SlotsPerEpoch`. -/
def computeStartSlotAtEpoch (f : ForkChoiceStore G) (epoch : Nat) : Nat :=
  (epoch * f.beaconCfg.SlotsPerEpoch) % u64

/-! ## Finalization prune -/

/-- One iteration of the first loop of `onNewFinalized` at key `k`: the entry is
deleted when the key's epoch does not exceed the new finalized epoch. -/
def pruneCheckpointStateStep (newFinalized : Checkpoint)
    (m : AList (fun _ : Checkpoint => checkpointState)) (k : Checkpoint) :
    AList (fun _ : Checkpoint => checkpointState) :=
  if k.epoch ≤ newFinalized.epoch then m.erase k else m

/-- The first loop of `onNewFinalized`, visiting `keys` in order. -/
def pruneCheckpointStates (newFinalized : Checkpoint) (keys : List Checkpoint)
    (m : AList (fun _ : Checkpoint => checkpointState)) :
    AList (fun _ : Checkpoint => checkpointState) :=
  keys.foldl (pruneCheckpointStateStep newFinalized) m

/-- One iteration of the second loop of `onNewFinalized` at key `k`, on the
pair (children map, head set): when the entry's `parentSlot` does not exceed
`threshold`, the key is deleted from both. -/
def pruneChildrenStep (threshold : Nat)
    (st : AList (fun _ : Hash => ForkNode) × Finset Hash) (k : Hash) :
    AList (fun _ : Hash => ForkNode) × Finset Hash :=
  match st.1.lookup k with
  | some children =>
    if children.parentSlot ≤ threshold then (st.1.erase k, st.2.erase k) else st
  | none => st

/-- The second loop of `onNewFinalized`, visiting `keys` in order. -/
def pruneChildrens (threshold : Nat) (keys : List Hash)
    (st : AList (fun _ : Hash => ForkNode) × Finset Hash) :
    AList (fun _ : Hash => ForkNode) × Finset Hash :=
  keys.foldl (pruneChildrenStep threshold) st

/-- The method `onNewFinalized`: evict checkpoint states, evict fork nodes and
their head-set membership, then prune the graph. The threshold is the `uint64`
product `newFinalized.Epoch() * SlotsPerEpoch`. -/
def onNewFinalized (fg : ForkGraph G) (f : ForkChoiceStore G) (newFinalized : Checkpoint) :
    ForkChoiceStore G :=
  let checkpointStates :=
    pruneCheckpointStates newFinalized f.checkpointStates.keys f.checkpointStates
  let nodes :=
    pruneChildrens ((newFinalized.epoch * f.beaconCfg.SlotsPerEpoch) % u64) f.childrens.keys
      (f.childrens, f.headSet)
  { f with
    checkpointStates := checkpointStates
    childrens := nodes.1
    headSet := nodes.2
    forkGraph := fg.Prune f.forkGraph ((newFinalized.epoch * f.beaconCfg.SlotsPerEpoch) % u64) }

/-! ## Checkpoint updates -/

/-- The method `updateCheckpoints`. -/
def updateCheckpoints (fg : ForkGraph G) (f : ForkChoiceStore G)
    (justifiedCheckpoint finalizedCheckpoint : Checkpoint) : ForkChoiceStore G :=
  let f1 :=
    if justifiedCheckpoint.epoch > f.justifiedCheckpoint.epoch then
      { f with justifiedCheckpoint := justifiedCheckpoint }
    else f
  if finalizedCheckpoint.epoch > f1.finalizedCheckpoint.epoch then
    { onNewFinalized fg f1 finalizedCheckpoint with finalizedCheckpoint := finalizedCheckpoint }
  else f1

/-- The method `updateUnrealizedCheckpoints`. -/
def updateUnrealizedCheckpoints (f : ForkChoiceStore G)
    (justifiedCheckpoint finalizedCheckpoint : Checkpoint) : ForkChoiceStore G :=
  let f1 :=
    if justifiedCheckpoint.epoch > f.unrealizedJustifiedCheckpoint.epoch then
      { f with unrealizedJustifiedCheckpoint := justifiedCheckpoint }
    else f
  if finalizedCheckpoint.epoch > f1.unrealizedFinalizedCheckpoint.epoch then
    { f1 with unrealizedFinalizedCheckpoint := finalizedCheckpoint }
  else f1

/-! ## Ancestor walk -/

/-- The loop of `Ancestor`, entered with the current `root` and its `header`;
`fuel` bounds the number of iterations. -/
def ancestorLoop (fg : ForkGraph G) (g : G) (slot : Nat) :
    Nat → Hash → BeaconBlockHeader → Option Hash
  | 0, root, header => if header.slot > slot then none else some root
  | fuel + 1, root, header =>
    if header.slot > slot then
      match fg.GetHeader g header.parentRoot with
      | none => some zeroHash
      | some parent => ancestorLoop fg g slot fuel header.parentRoot parent
    else some root

/-- The method `Ancestor`, with at most `fuel` iterations of its loop. -/
def Ancestor (fg : ForkGraph G) (fuel : Nat) (f : ForkChoiceStore G) (root : Hash)
    (slot : Nat) : Option Hash :=
  match fg.GetHeader f.forkGraph root with
  | none => some zeroHash
  | some header => ancestorLoop fg f.forkGraph slot fuel root header

/-! ## Checkpoint-state cache -/

/-- The method `getCheckpointState`: the store after the call and the returned
checkpoint state or error. -/
def getCheckpointState (fg : ForkGraph G) (processSlots : SlotProcessor)
    (f : ForkChoiceStore G) (checkpoint : Checkpoint) :
    ForkChoiceStore G × Except String checkpointState :=
  match f.checkpointStates.lookup checkpoint with
  | some state => (f, .ok state)
  | none =>
    let fetched := fg.GetState f.forkGraph checkpoint.blockRoot true
    let f1 := { f with forkGraph := fetched.1 }
    match fetched.2 with
    | .error err => (f1, .error err)
    | .ok none => (f1, .error "getCheckpointState: baseState not found in graph")
    | .ok (some baseState) =>
      let advanced :=
        if baseState.slot < computeStartSlotAtEpoch f1 checkpoint.epoch then
          processSlots baseState (computeStartSlotAtEpoch f1 checkpoint.epoch)
        else .ok baseState
      match advanced with
      | .error err => (f1, .error err)
      | .ok baseState =>
        let checkpointState :=
          newCheckpointState f1.beaconCfg f1.anchorPublicKeys baseState.validators
            baseState.randaoMixes baseState.genesisValidatorsRoot baseState.fork
            baseState.totalActiveBalance baseState.epoch
        ({ f1 with checkpointStates := f1.checkpointStates.insert checkpoint checkpointState },
          .ok checkpointState)

/-! ## Specification vocabulary -/

/-- Run a sequence of `updateCheckpoints` calls, one (justified, finalized)
pair of candidates per call. -/
def updateCheckpointsSeq (fg : ForkGraph G) (f : ForkChoiceStore G)
    (calls : List (Checkpoint × Checkpoint)) : ForkChoiceStore G :=
  calls.foldl (fun s c => updateCheckpoints fg s c.1 c.2) f

/-- The stores reachable from `f0` by `updateCheckpoints`,
`updateUnrealizedCheckpoints` and `getCheckpointState` calls, where
`getCheckpointState` is only called on a store and checkpoint that `allowed`
admits. -/
inductive Reachable (fg : ForkGraph G) (processSlots : SlotProcessor)
    (allowed : ForkChoiceStore G → Checkpoint → Prop) (f0 : ForkChoiceStore G) :
    ForkChoiceStore G → Prop
  | start : Reachable fg processSlots allowed f0 f0
  | update (f : ForkChoiceStore G) (j c : Checkpoint) :
      Reachable fg processSlots allowed f0 f →
      Reachable fg processSlots allowed f0 (updateCheckpoints fg f j c)
  | updateUnrealized (f : ForkChoiceStore G) (j c : Checkpoint) :
      Reachable fg processSlots allowed f0 f →
      Reachable fg processSlots allowed f0 (updateUnrealizedCheckpoints f j c)
  | getState (f : ForkChoiceStore G) (c : Checkpoint) :
      Reachable fg processSlots allowed f0 f → allowed f c →
      Reachable fg processSlots allowed f0 (getCheckpointState fg processSlots f c).1

/-- The statement `Visits fg g slot root n r`: the loop of `Ancestor root slot`
holds `r` as its current root after `n` iterations: `r` is reached from `root`
by `n` parent links, each taken from a present header whose slot exceeds
`slot`. -/
inductive Visits (fg : ForkGraph G) (g : G) (slot : Nat) : Hash → Nat → Hash → Prop
  | here (root : Hash) : Visits fg g slot root 0 root
  | next (root : Hash) (header : BeaconBlockHeader) (n : Nat) (r : Hash) :
      fg.GetHeader g root = some header → slot < header.slot →
      Visits fg g slot header.parentRoot n r → Visits fg g slot root (n + 1) r

/-! ## A concrete store for evaluating the definitions -/

/-- An in-memory graph: headers and states by block root. -/
structure MemGraph where
  headers : List (Hash × BeaconBlockHeader)
  states : List (Hash × BeaconState)

/-- An implementation of the graph interface over `MemGraph`: lookups by root,
and a prune that drops what lies below the given slot. -/
def memForkGraph : ForkGraph MemGraph where
  GetHeader := fun g root => g.headers.lookup root
  GetState := fun g root _ => (g, .ok (g.states.lookup root))
  Prune := fun g slot =>
    { headers := g.headers.filter (fun e => decide (slot ≤ e.2.slot))
      states := g.states.filter (fun e => decide (slot ≤ e.2.slot)) }

/-- A slot processor that moves the state to the target slot. -/
def sampleProcessSlots : SlotProcessor := fun st slot => .ok { st with slot := slot }

/-- A chain of three blocks `13 → 12 → 11` at slots 3, 2, 1; the parent `10` of
block `11` is not in the graph. The state of block `11` is stored. -/
def sampleGraph : MemGraph where
  headers := [(13, ⟨3, 12, 0, 0⟩), (12, ⟨2, 11, 0, 0⟩), (11, ⟨1, 10, 0, 0⟩)]
  states := [(11, ⟨1, [], [], 0, ⟨0, 0, 0⟩, 0, 0⟩)]

/-- A store at 32 slots per epoch whose finalized checkpoint is at epoch 0, with
an empty checkpoint-state cache and two fork nodes, with parent slots 150 and
170, both in the head set. -/
def sampleStore : ForkChoiceStore MemGraph where
  time := 0
  genesisTime := 0
  beaconCfg := ⟨0, 12, 32⟩
  anchorPublicKeys := []
  justifiedCheckpoint := ⟨0, 11⟩
  finalizedCheckpoint := ⟨0, 11⟩
  unrealizedJustifiedCheckpoint := ⟨0, 11⟩
  unrealizedFinalizedCheckpoint := ⟨0, 11⟩
  checkpointStates := ∅
  childrens := (AList.singleton 9 ⟨9, 170, 0, []⟩).insert 7 ⟨7, 150, 0, []⟩
  headSet := {7, 9}
  forkGraph := sampleGraph

/-! ## Recording the calls made to the graph -/

/-- A call to one of the state-changing methods of the graph interface. -/
inductive GraphCall where
  | getState (root : Hash) (alwaysCopy : Bool)
  | prune (slot : Nat)
  deriving DecidableEq, Repr

/-- The graph `fg` with a log: every `GetState` and every `Prune` call is
passed on to `fg` and appended to the log. -/
def recordingForkGraph (fg : ForkGraph G) : ForkGraph (G × List GraphCall) where
  GetHeader := fun g root => fg.GetHeader g.1 root
  GetState := fun g root alwaysCopy =>
    (((fg.GetState g.1 root alwaysCopy).1, g.2 ++ [GraphCall.getState root alwaysCopy]),
      (fg.GetState g.1 root alwaysCopy).2)
  Prune := fun g slot => (fg.Prune g.1 slot, g.2 ++ [GraphCall.prune slot])

/-- The store `f` with the log `log` attached to its graph. -/
def withLog (f : ForkChoiceStore G) (log : List GraphCall) :
    ForkChoiceStore (G × List GraphCall) where
  time := f.time
  genesisTime := f.genesisTime
  beaconCfg := f.beaconCfg
  anchorPublicKeys := f.anchorPublicKeys
  justifiedCheckpoint := f.justifiedCheckpoint
  finalizedCheckpoint := f.finalizedCheckpoint
  unrealizedJustifiedCheckpoint := f.unrealizedJustifiedCheckpoint
  unrealizedFinalizedCheckpoint := f.unrealizedFinalizedCheckpoint
  checkpointStates := f.checkpointStates
  childrens := f.childrens
  headSet := f.headSet
  forkGraph := (f.forkGraph, log)

/-- The store of `onNewFinalized` when its two eviction loops have run and the
graph has not been pruned yet. -/
def onNewFinalizedEvictions (f : ForkChoiceStore G) (newFinalized : Checkpoint) :
    ForkChoiceStore G :=
  { f with
    checkpointStates :=
      pruneCheckpointStates newFinalized f.checkpointStates.keys f.checkpointStates
    childrens :=
      (pruneChildrens ((newFinalized.epoch * f.beaconCfg.SlotsPerEpoch) % u64) f.childrens.keys
        (f.childrens, f.headSet)).1
    headSet :=
      (pruneChildrens ((newFinalized.epoch * f.beaconCfg.SlotsPerEpoch) % u64) f.childrens.keys
        (f.childrens, f.headSet)).2 }

/-! ## The writes of `onNewFinalized`, in program order -/

/-- A write that `onNewFinalized` performs: a `delete` on one of the three maps,
or the call of the graph's `Prune`. -/
inductive StoreEvent where
  | deleteCheckpointState (k : Checkpoint)
  | deleteChildren (k : Hash)
  | deleteHeadSet (k : Hash)
  | pruneGraph (slot : Nat)
  deriving DecidableEq, Repr

/-- One iteration of the first loop of `onNewFinalized` at key `k`, on the pair
(cache, log): the `delete` is appended to the log when it is performed. -/
def pruneCheckpointStateStepTraced (newFinalized : Checkpoint)
    (st : AList (fun _ : Checkpoint => checkpointState) × List StoreEvent) (k : Checkpoint) :
    AList (fun _ : Checkpoint => checkpointState) × List StoreEvent :=
  if k.epoch ≤ newFinalized.epoch then
    (st.1.erase k, st.2 ++ [StoreEvent.deleteCheckpointState k])
  else st

/-- One iteration of the second loop of `onNewFinalized` at key `k`, on the
children map, the head set and the log: the two `delete`s are appended to the
log, in the order of the source, when they are performed. -/
def pruneChildrenStepTraced (threshold : Nat)
    (st : (AList (fun _ : Hash => ForkNode) × Finset Hash) × List StoreEvent) (k : Hash) :
    (AList (fun _ : Hash => ForkNode) × Finset Hash) × List StoreEvent :=
  match st.1.1.lookup k with
  | some children =>
    if children.parentSlot ≤ threshold then
      ((st.1.1.erase k, st.1.2.erase k),
        st.2 ++ [StoreEvent.deleteChildren k, StoreEvent.deleteHeadSet k])
    else st
  | none => st

/-- The method `onNewFinalized` with a log of its writes: the three statements
run in the order of the source, each on the store and log the previous one
left, and each write is appended to the log when it is performed. -/
def onNewFinalizedTraced (fg : ForkGraph G) (f : ForkChoiceStore G) (newFinalized : Checkpoint)
    (log : List StoreEvent) : ForkChoiceStore G × List StoreEvent :=
  -- get rid of checkpoint states
  let afterStates :=
    f.checkpointStates.keys.foldl (pruneCheckpointStateStepTraced newFinalized)
      (f.checkpointStates, log)
  let f1 := { f with checkpointStates := afterStates.1 }
  -- get rid of children
  let afterChildren :=
    f1.childrens.keys.foldl
      (pruneChildrenStepTraced ((newFinalized.epoch * f1.beaconCfg.SlotsPerEpoch) % u64))
      ((f1.childrens, f1.headSet), afterStates.2)
  let f2 := { f1 with childrens := afterChildren.1.1, headSet := afterChildren.1.2 }
  -- prune the graph
  ({ f2 with
      forkGraph :=
        fg.Prune f2.forkGraph ((newFinalized.epoch * f2.beaconCfg.SlotsPerEpoch) % u64) },
    afterChildren.2 ++
      [StoreEvent.pruneGraph ((newFinalized.epoch * f2.beaconCfg.SlotsPerEpoch) % u64)])

/-- The two `delete`s of the second loop for each of the given keys, in order. -/
def childrenDeletes : List Hash → List StoreEvent
  | [] => []
  | k :: rest =>
    StoreEvent.deleteChildren k :: StoreEvent.deleteHeadSet k :: childrenDeletes rest

/-- Whether the children map `m` holds, at key `k`, an entry whose `parentSlot`
does not exceed `threshold`. -/
def evictsChildren (threshold : Nat) (m : AList (fun _ : Hash => ForkNode)) (k : Hash) : Bool :=
  match m.lookup k with
  | some children => decide (children.parentSlot ≤ threshold)
  | none => false

/-- A slot processor that always fails. -/
def failingProcessSlots : SlotProcessor := fun _ _ => .error "slot processing failed"

end Forkchoice

/-!
# Base fee of EIP-1559 (`consensus/misc/eip1559.go`)

Big integers are integers; a nil `*big.Int` is `none`. A panic of the Go code
(nil dereference, division by zero) is an error result. `big.Int.Div` is
Euclidean division, as is `/` on `Int`.
-/

namespace Misc

/-- The panics of the Go code. -/
inductive Panic where
  | divisionByZero
  | nilDereference
  deriving DecidableEq, Repr

/-- The constants of the `params` package that the code reads. They are declared
outside the excerpt and are parameters of the embedding. -/
structure ProtocolParams where
  ElasticityMultiplier : Nat
  InitialBaseFee : Nat
  BaseFeeChangeDenominator : Nat
  BaseFeeChangeDenominatorPostDelhi : Nat
  deriving DecidableEq, Repr

/-- The part of `borcfg.BorConfig` that the code reads: the method `IsDelhi`,
declared outside the excerpt. -/
structure BorConfig where
  IsDelhi : Nat → Bool

/-- The part of `chain.Config` that the code reads: the method `IsLondon`,
declared outside the excerpt, and the field `Bor`, which is `some` when it holds
a `*borcfg.BorConfig`. -/
structure Config where
  IsLondon : Nat → Bool
  Bor : Option BorConfig

/-- The fields of `types.Header` that the code reads. `Number` is a
non-negative big integer; `BaseFee` may be nil. -/
structure Header where
  Number : Nat
  GasLimit : Nat
  GasUsed : Nat
  BaseFee : Option Int
  deriving DecidableEq, Repr

/-- The method `Uint64` of a non-negative big integer: its low 64 bits. -/
def Uint64 (n : Nat) : Nat := n % 2 ^ 64

/-- Modelled from the spec: `math.BigMax` is declared outside the excerpt; it
returns the greater of its two arguments. -/
def BigMax (x y : Int) : Int := if x < y then y else x

/-- The method `big.Int.Div`: Euclidean division, which panics on a zero
divisor. -/
def bigDiv (x y : Int) : Except Panic Int :=
  if y = 0 then .error Panic.divisionByZero else .ok (x / y)

/-- The function `getBaseFeeChangeDenominator`. -/
def getBaseFeeChangeDenominator (p : ProtocolParams) (borConfig : Option BorConfig)
    (number : Nat) : Nat :=
  match borConfig with
  | some bor =>
    if bor.IsDelhi number then p.BaseFeeChangeDenominatorPostDelhi
    else p.BaseFeeChangeDenominator
  | none => p.BaseFeeChangeDenominator

/-- The function `CalcBaseFee`: the base fee, or the panic the Go code ends
in. A zero `ElasticityMultiplier` makes the `uint64` division that computes
the gas target a division by zero. -/
def CalcBaseFee (p : ProtocolParams) (config : Config) (parent : Header) : Except Panic Int :=
  if !config.IsLondon (Uint64 parent.Number) then .ok (p.InitialBaseFee : Int)
  else if p.ElasticityMultiplier = 0 then .error Panic.divisionByZero
  else
    let parentGasTarget := parent.GasLimit / p.ElasticityMultiplier
    let baseFeeChangeDenominator : Int :=
      (getBaseFeeChangeDenominator p config.Bor (Uint64 parent.Number) : Nat)
    if parent.GasUsed = parentGasTarget then
      match parent.BaseFee with
      | none => .error Panic.nilDereference
      | some baseFee => .ok baseFee
    else if parent.GasUsed > parentGasTarget then
      match parent.BaseFee with
      | none => .error Panic.nilDereference
      | some baseFee =>
        let gasUsedDelta : Int := ((parent.GasUsed - parentGasTarget : Nat) : Int)
        let x := baseFee * gasUsedDelta
        match bigDiv x (parentGasTarget : Int) with
        | .error e => .error e
        | .ok y =>
          match bigDiv y baseFeeChangeDenominator with
          | .error e => .error e
          | .ok q => .ok (baseFee + BigMax q 1)
    else
      match parent.BaseFee with
      | none => .error Panic.nilDereference
      | some baseFee =>
        let gasUsedDelta : Int := ((parentGasTarget - parent.GasUsed : Nat) : Int)
        let x := baseFee * gasUsedDelta
        match bigDiv x (parentGasTarget : Int) with
        | .error e => .error e
        | .ok y =>
          match bigDiv y baseFeeChangeDenominator with
          | .error e => .error e
          | .ok baseFeeDelta => .ok (BigMax (baseFee - baseFeeDelta) 0)

/-- The errors that `VerifyEip1559Header` returns: the error of the gas-limit
check, the missing base fee, and the base fee that differs from the expected
one, with the values its message prints. -/
inductive HeaderError where
  | gasLimit (err : String)
  | missingBaseFee
  | invalidBaseFee (got want : Int) (parentBaseFee : Option Int) (parentGasUsed : Nat)
  deriving DecidableEq, Repr

/-- The function `VerifyEip1559Header`: `.ok none` is the nil error, `.ok (some e)`
the returned error `e`, and `.error` a panic of the Go code. `VerifyGaslimit` is
declared outside the excerpt and is a parameter: it returns `none` or its
error for the parent gas limit and the header gas limit. The product
`parent.GasLimit * ElasticityMultiplier` is a `uint64` product. -/
def VerifyEip1559Header (p : ProtocolParams) (VerifyGaslimit : Nat → Nat → Option String)
    (config : Config) (parent header : Header) (skipGasLimit : Bool) :
    Except Panic (Option HeaderError) :=
  let gasLimitError : Option String :=
    if !skipGasLimit then
      let parentGasLimit :=
        if !config.IsLondon (Uint64 parent.Number) then
          (parent.GasLimit * p.ElasticityMultiplier) % 2 ^ 64
        else parent.GasLimit
      VerifyGaslimit parentGasLimit header.GasLimit
    else none
  match gasLimitError with
  | some err => .ok (some (HeaderError.gasLimit err))
  | none =>
    match header.BaseFee with
    | none => .ok (some HeaderError.missingBaseFee)
    | some baseFee =>
      match CalcBaseFee p config parent with
      | .error e => .error e
      | .ok expectedBaseFee =>
        if baseFee ≠ expectedBaseFee then
          .ok (some (HeaderError.invalidBaseFee baseFee expectedBaseFee parent.BaseFee
            parent.GasUsed))
        else .ok none

/-! ## Concrete inputs for evaluating the definitions -/

/-- The values the protocol gives to the constants: elasticity multiplier 2,
initial base fee 1 gwei, change denominators 8 and 16. -/
def sampleParams : ProtocolParams := ⟨2, 1000000000, 8, 16⟩

/-- A chain without a bor config on which London starts at block 100. -/
def sampleConfig : Config where
  IsLondon := fun n => decide (100 ≤ n)
  Bor := none

end Misc

namespace Forkchoice

variable {G : Type}

/-! ## Helper lemmas -/

theorem onNewFinalized_justifiedCheckpoint (fg : ForkGraph G) (f : ForkChoiceStore G)
    (c : Checkpoint) : (onNewFinalized fg f c).justifiedCheckpoint = f.justifiedCheckpoint :=
  rfl

theorem onNewFinalized_finalizedCheckpoint (fg : ForkGraph G) (f : ForkChoiceStore G)
    (c : Checkpoint) : (onNewFinalized fg f c).finalizedCheckpoint = f.finalizedCheckpoint :=
  rfl

theorem updateCheckpoints_justifiedCheckpoint (fg : ForkGraph G) (f : ForkChoiceStore G)
    (j c : Checkpoint) :
    (updateCheckpoints fg f j c).justifiedCheckpoint =
      if j.epoch > f.justifiedCheckpoint.epoch then j else f.justifiedCheckpoint := by
  unfold updateCheckpoints
  by_cases hj : j.epoch > f.justifiedCheckpoint.epoch <;>
    by_cases hc : c.epoch > f.finalizedCheckpoint.epoch <;>
    simp [hj, hc, onNewFinalized]

theorem updateCheckpoints_finalizedCheckpoint (fg : ForkGraph G) (f : ForkChoiceStore G)
    (j c : Checkpoint) :
    (updateCheckpoints fg f j c).finalizedCheckpoint =
      if c.epoch > f.finalizedCheckpoint.epoch then c else f.finalizedCheckpoint := by
  unfold updateCheckpoints
  by_cases hj : j.epoch > f.justifiedCheckpoint.epoch <;>
    by_cases hc : c.epoch > f.finalizedCheckpoint.epoch <;>
    simp [hj, hc, onNewFinalized]

theorem updateCheckpoints_justified_epoch_le (fg : ForkGraph G) (f : ForkChoiceStore G)
    (j c : Checkpoint) :
    f.justifiedCheckpoint.epoch ≤ (updateCheckpoints fg f j c).justifiedCheckpoint.epoch := by
  rw [updateCheckpoints_justifiedCheckpoint]
  split_ifs with h
  · exact Nat.le_of_lt h
  · exact Nat.le_refl _

theorem updateCheckpoints_finalized_epoch_le (fg : ForkGraph G) (f : ForkChoiceStore G)
    (j c : Checkpoint) :
    f.finalizedCheckpoint.epoch ≤ (updateCheckpoints fg f j c).finalizedCheckpoint.epoch := by
  rw [updateCheckpoints_finalizedCheckpoint]
  split_ifs with h
  · exact Nat.le_of_lt h
  · exact Nat.le_refl _

theorem updateCheckpointsSeq_epoch_le (fg : ForkGraph G)
    (calls : List (Checkpoint × Checkpoint)) (f : ForkChoiceStore G) :
    f.justifiedCheckpoint.epoch ≤
        (updateCheckpointsSeq fg f calls).justifiedCheckpoint.epoch ∧
      f.finalizedCheckpoint.epoch ≤
        (updateCheckpointsSeq fg f calls).finalizedCheckpoint.epoch := by
  induction calls generalizing f with
  | nil => exact ⟨Nat.le_refl _, Nat.le_refl _⟩
  | cons c rest ih =>
    have h := ih (updateCheckpoints fg f c.1 c.2)
    exact ⟨Nat.le_trans (updateCheckpoints_justified_epoch_le fg f c.1 c.2) h.1,
      Nat.le_trans (updateCheckpoints_finalized_epoch_le fg f c.1 c.2) h.2⟩

theorem lookup_pruneCheckpointStates (c : Checkpoint) (keys : List Checkpoint)
    (m : AList (fun _ : Checkpoint => checkpointState)) (k : Checkpoint) :
    (pruneCheckpointStates c keys m).lookup k =
      if k ∈ keys ∧ k.epoch ≤ c.epoch then none else m.lookup k := by
  induction keys generalizing m with
  | nil => simp [pruneCheckpointStates]
  | cons a rest ih =>
    have hstep : pruneCheckpointStates c (a :: rest) m =
        pruneCheckpointStates c rest (pruneCheckpointStateStep c m a) := rfl
    rw [hstep, ih]
    by_cases hk : k ∈ rest ∧ k.epoch ≤ c.epoch
    · have hk2 : k ∈ a :: rest ∧ k.epoch ≤ c.epoch := ⟨List.mem_cons_of_mem _ hk.1, hk.2⟩
      rw [if_pos hk, if_pos hk2]
    · rw [if_neg hk]
      unfold pruneCheckpointStateStep
      by_cases ha : a.epoch ≤ c.epoch
      · rw [if_pos ha]
        by_cases hka : k = a
        · subst hka
          rw [AList.lookup_erase, if_pos ⟨List.mem_cons_self _ _, ha⟩]
        · rw [AList.lookup_erase_ne hka]
          have hk2 : ¬ (k ∈ a :: rest ∧ k.epoch ≤ c.epoch) := by
            rintro ⟨hmem, hle⟩
            rcases List.mem_cons.mp hmem with h | h
            · exact hka h
            · exact hk ⟨h, hle⟩
          rw [if_neg hk2]
      · rw [if_neg ha]
        have hk2 : ¬ (k ∈ a :: rest ∧ k.epoch ≤ c.epoch) := by
          rintro ⟨hmem, hle⟩
          rcases List.mem_cons.mp hmem with h | h
          · exact ha (h ▸ hle)
          · exact hk ⟨h, hle⟩
        rw [if_neg hk2]

theorem pruneChildrens_cons (threshold : Nat) (a : Hash) (rest : List Hash)
    (st : AList (fun _ : Hash => ForkNode) × Finset Hash) :
    pruneChildrens threshold (a :: rest) st =
      pruneChildrens threshold rest (pruneChildrenStep threshold st a) := rfl

theorem pruneChildrenStep_lookup_some (threshold : Nat)
    (st : AList (fun _ : Hash => ForkNode) × Finset Hash) (a k : Hash) (n : ForkNode)
    (h : (pruneChildrenStep threshold st a).1.lookup k = some n) : st.1.lookup k = some n := by
  unfold pruneChildrenStep at h
  cases ha : st.1.lookup a with
  | none => rw [ha] at h; exact h
  | some c =>
    rw [ha] at h
    by_cases hc : c.parentSlot ≤ threshold
    · simp only [if_pos hc] at h
      by_cases hka : k = a
      · subst hka
        rw [AList.lookup_erase] at h
        cases h
      · rwa [AList.lookup_erase_ne hka] at h
    · simp only [if_neg hc] at h
      exact h

theorem pruneChildrenStep_headSet_subset (threshold : Nat)
    (st : AList (fun _ : Hash => ForkNode) × Finset Hash) (a k : Hash)
    (h : k ∈ (pruneChildrenStep threshold st a).2) : k ∈ st.2 := by
  unfold pruneChildrenStep at h
  cases ha : st.1.lookup a with
  | none => rw [ha] at h; exact h
  | some c =>
    rw [ha] at h
    by_cases hc : c.parentSlot ≤ threshold
    · simp only [if_pos hc] at h
      exact Finset.mem_of_mem_erase h
    · simp only [if_neg hc] at h
      exact h

theorem pruneChildrenStep_keeps (threshold : Nat)
    (st : AList (fun _ : Hash => ForkNode) × Finset Hash) (a k : Hash) (n : ForkNode)
    (h : st.1.lookup k = some n) (hka : k ≠ a ∨ threshold < n.parentSlot) :
    (pruneChildrenStep threshold st a).1.lookup k = some n := by
  unfold pruneChildrenStep
  cases ha : st.1.lookup a with
  | none => exact h
  | some c =>
    by_cases hc : c.parentSlot ≤ threshold
    · have hne : k ≠ a := by
        rcases hka with hne | hlt
        · exact hne
        · intro heq
          subst heq
          rw [ha] at h
          cases h
          omega
      simp only [if_pos hc]
      rw [AList.lookup_erase_ne hne]
      exact h
    · simp only [if_neg hc]
      exact h

theorem pruneChildrens_lookup_some (threshold : Nat) (keys : List Hash)
    (st : AList (fun _ : Hash => ForkNode) × Finset Hash) (k : Hash) (n : ForkNode)
    (h : (pruneChildrens threshold keys st).1.lookup k = some n) : st.1.lookup k = some n := by
  induction keys generalizing st with
  | nil => exact h
  | cons a rest ih =>
    rw [pruneChildrens_cons] at h
    exact pruneChildrenStep_lookup_some threshold st a k n (ih _ h)

theorem pruneChildrens_headSet_subset (threshold : Nat) (keys : List Hash)
    (st : AList (fun _ : Hash => ForkNode) × Finset Hash) (k : Hash)
    (h : k ∈ (pruneChildrens threshold keys st).2) : k ∈ st.2 := by
  induction keys generalizing st with
  | nil => exact h
  | cons a rest ih =>
    rw [pruneChildrens_cons] at h
    exact pruneChildrenStep_headSet_subset threshold st a k (ih _ h)

theorem pruneChildrens_keeps (threshold : Nat) (keys : List Hash)
    (st : AList (fun _ : Hash => ForkNode) × Finset Hash) (k : Hash) (n : ForkNode)
    (h : st.1.lookup k = some n) (hn : threshold < n.parentSlot) :
    (pruneChildrens threshold keys st).1.lookup k = some n := by
  induction keys generalizing st with
  | nil => exact h
  | cons a rest ih =>
    rw [pruneChildrens_cons]
    exact ih _ (pruneChildrenStep_keeps threshold st a k n h (Or.inr hn))

theorem pruneChildrens_removes (threshold : Nat) (keys : List Hash)
    (st : AList (fun _ : Hash => ForkNode) × Finset Hash) (k : Hash) (n : ForkNode)
    (h : st.1.lookup k = some n) (hn : n.parentSlot ≤ threshold) (hk : k ∈ keys) :
    (pruneChildrens threshold keys st).1.lookup k = none ∧
      k ∉ (pruneChildrens threshold keys st).2 := by
  induction keys generalizing st with
  | nil => cases hk
  | cons a rest ih =>
    rw [pruneChildrens_cons]
    by_cases hka : k = a
    · subst hka
      have hstep : pruneChildrenStep threshold st k = (st.1.erase k, st.2.erase k) := by
        unfold pruneChildrenStep
        rw [h]
        simp only [if_pos hn]
      rw [hstep]
      constructor
      · cases hres : (pruneChildrens threshold rest (st.1.erase k, st.2.erase k)).1.lookup k with
        | none => rfl
        | some m =>
          have := pruneChildrens_lookup_some threshold rest _ k m hres
          rw [AList.lookup_erase] at this
          cases this
      · intro hmem
        have := pruneChildrens_headSet_subset threshold rest _ k hmem
        exact Finset.not_mem_erase k st.2 this
    · have hrest : k ∈ rest := by
        rcases List.mem_cons.mp hk with h1 | h1
        · exact absurd h1 hka
        · exact h1
      exact ih _ (pruneChildrenStep_keeps threshold st a k n h (Or.inl hka)) hrest

theorem ancestorLoop_of_slot_le (fg : ForkGraph G) (g : G) (slot fuel : Nat) (root : Hash)
    (header : BeaconBlockHeader) (h : header.slot ≤ slot) :
    ancestorLoop fg g slot fuel root header = some root := by
  cases fuel with
  | zero => simp [ancestorLoop, Nat.not_lt.mpr h]
  | succ fuel => simp [ancestorLoop, Nat.not_lt.mpr h]

theorem Ancestor_of_slot_le (fg : ForkGraph G) (fuel : Nat) (f : ForkChoiceStore G)
    (root : Hash) (slot : Nat) (header : BeaconBlockHeader)
    (hroot : fg.GetHeader f.forkGraph root = some header) (h : header.slot ≤ slot) :
    Ancestor fg fuel f root slot = some root := by
  unfold Ancestor
  rw [hroot]
  exact ancestorLoop_of_slot_le fg f.forkGraph slot fuel root header h

theorem Visits.header_isSome {fg : ForkGraph G} {g : G} {slot : Nat} {root r : Hash} {n : Nat}
    (h : Visits fg g slot root n r) (hr : (fg.GetHeader g r).isSome) :
    (fg.GetHeader g root).isSome := by
  cases h with
  | here => exact hr
  | next _ header _ _ hroot _ _ => rw [hroot]; rfl

theorem ancestorLoop_of_visits_present (fg : ForkGraph G) (g : G) (slot : Nat) (n : Nat) :
    ∀ (root : Hash) (header : BeaconBlockHeader) (r : Hash) (last : BeaconBlockHeader),
      fg.GetHeader g root = some header → Visits fg g slot root n r →
      fg.GetHeader g r = some last → last.slot ≤ slot →
      ∀ fuel, n ≤ fuel → ancestorLoop fg g slot fuel root header = some r := by
  induction n with
  | zero =>
    intro root header r last hroot hv hlast hle fuel _
    cases hv
    rw [hroot] at hlast
    cases hlast
    exact ancestorLoop_of_slot_le fg g slot fuel root header hle
  | succ n ih =>
    intro root header r last hroot hv hlast hle fuel hfuel
    cases hv with
    | next _ header' _ _ hroot' hgt hrest =>
      rw [hroot] at hroot'
      cases hroot'
      obtain ⟨fuel', rfl⟩ : ∃ fuel', fuel = fuel' + 1 := ⟨fuel - 1, by omega⟩
      have hparent : (fg.GetHeader g header.parentRoot).isSome :=
        hrest.header_isSome (by rw [hlast]; rfl)
      obtain ⟨parent, hp⟩ := Option.isSome_iff_exists.mp hparent
      simp only [ancestorLoop, gt_iff_lt, hgt, if_true, hp]
      exact ih header.parentRoot parent r last hp hrest hlast hle fuel' (by omega)

theorem ancestorLoop_of_visits_missing (fg : ForkGraph G) (g : G) (slot : Nat) (n : Nat) :
    ∀ (root : Hash) (header : BeaconBlockHeader) (r : Hash),
      fg.GetHeader g root = some header → Visits fg g slot root n r →
      fg.GetHeader g r = none →
      ∀ fuel, n ≤ fuel → ancestorLoop fg g slot fuel root header = some zeroHash := by
  induction n with
  | zero =>
    intro root header r hroot hv hmiss fuel _
    cases hv
    rw [hroot] at hmiss
    cases hmiss
  | succ n ih =>
    intro root header r hroot hv hmiss fuel hfuel
    cases hv with
    | next _ header' _ _ hroot' hgt hrest =>
      rw [hroot] at hroot'
      cases hroot'
      obtain ⟨fuel', rfl⟩ : ∃ fuel', fuel = fuel' + 1 := ⟨fuel - 1, by omega⟩
      cases hp : fg.GetHeader g header.parentRoot with
      | none => simp only [ancestorLoop, gt_iff_lt, hgt, if_true, hp]
      | some parent =>
        simp only [ancestorLoop, gt_iff_lt, hgt, if_true, hp]
        exact ih header.parentRoot parent r hp hrest hmiss fuel' (by omega)

theorem ancestorLoop_some_cases (fg : ForkGraph G) (g : G) (slot : Nat) (fuel : Nat) :
    ∀ (root : Hash) (header : BeaconBlockHeader) (r : Hash),
      fg.GetHeader g root = some header →
      ancestorLoop fg g slot fuel root header = some r →
      (∃ n last, n ≤ fuel ∧ Visits fg g slot root n r ∧
          fg.GetHeader g r = some last ∧ last.slot ≤ slot) ∨
        (r = zeroHash ∧ ∃ n x, n ≤ fuel ∧ Visits fg g slot root n x ∧
          fg.GetHeader g x = none) := by
  induction fuel with
  | zero =>
    intro root header r hroot hres
    by_cases hgt : slot < header.slot
    · simp [ancestorLoop, hgt] at hres
    · simp only [ancestorLoop, gt_iff_lt, hgt, if_false, Option.some.injEq] at hres
      subst hres
      exact Or.inl ⟨0, header, Nat.le_refl _, Visits.here _, hroot, Nat.le_of_not_lt hgt⟩
  | succ fuel ih =>
    intro root header r hroot hres
    by_cases hgt : slot < header.slot
    · cases hp : fg.GetHeader g header.parentRoot with
      | none =>
        simp only [ancestorLoop, gt_iff_lt, hgt, if_true, hp, Option.some.injEq] at hres
        exact Or.inr ⟨hres.symm, 1, header.parentRoot, by omega,
          Visits.next root header 0 _ hroot hgt (Visits.here _), hp⟩
      | some parent =>
        simp only [ancestorLoop, gt_iff_lt, hgt, if_true, hp] at hres
        rcases ih header.parentRoot parent r hp hres with
          ⟨n, last, hn, hv, hlast, hle⟩ | ⟨hz, n, x, hn, hv, hx⟩
        · exact Or.inl ⟨n + 1, last, by omega, Visits.next root header n r hroot hgt hv,
            hlast, hle⟩
        · exact Or.inr ⟨hz, n + 1, x, by omega, Visits.next root header n x hroot hgt hv, hx⟩
    · simp only [ancestorLoop, gt_iff_lt, hgt, if_false, Option.some.injEq] at hres
      subst hres
      exact Or.inl ⟨0, header, Nat.zero_le _, Visits.here _, hroot, Nat.le_of_not_lt hgt⟩

theorem getCheckpointState_finalizedCheckpoint (fg : ForkGraph G) (processSlots : SlotProcessor)
    (f : ForkChoiceStore G) (c : Checkpoint) :
    (getCheckpointState fg processSlots f c).1.finalizedCheckpoint = f.finalizedCheckpoint := by
  simp only [getCheckpointState]
  repeat' split
  all_goals rfl

theorem getCheckpointState_checkpointStates (fg : ForkGraph G) (processSlots : SlotProcessor)
    (f : ForkChoiceStore G) (c : Checkpoint) :
    (getCheckpointState fg processSlots f c).1.checkpointStates = f.checkpointStates ∨
      ∃ cs, (getCheckpointState fg processSlots f c).1.checkpointStates =
        f.checkpointStates.insert c cs := by
  simp only [getCheckpointState]
  repeat' split
  all_goals first
    | exact Or.inl rfl
    | exact Or.inr ⟨_, rfl⟩

theorem updateUnrealizedCheckpoints_frame (f : ForkChoiceStore G) (j c : Checkpoint) :
    (updateUnrealizedCheckpoints f j c).finalizedCheckpoint = f.finalizedCheckpoint ∧
      (updateUnrealizedCheckpoints f j c).checkpointStates = f.checkpointStates := by
  unfold updateUnrealizedCheckpoints
  by_cases hj : j.epoch > f.unrealizedJustifiedCheckpoint.epoch <;>
    by_cases hc : c.epoch > f.unrealizedFinalizedCheckpoint.epoch <;>
    simp [hj, hc]

theorem updateCheckpoints_checkpointStates (fg : ForkGraph G) (f : ForkChoiceStore G)
    (j c : Checkpoint) :
    (updateCheckpoints fg f j c).checkpointStates =
      if c.epoch > f.finalizedCheckpoint.epoch then
        pruneCheckpointStates c f.checkpointStates.keys f.checkpointStates
      else f.checkpointStates := by
  unfold updateCheckpoints
  by_cases hj : j.epoch > f.justifiedCheckpoint.epoch <;>
    by_cases hc : c.epoch > f.finalizedCheckpoint.epoch <;>
    simp [hj, hc, onNewFinalized]

/-! ## Checkpoint updates: claims -/

/-- C1: along every finite sequence of `updateCheckpoints` calls, with arbitrary
candidate pairs, each call leaves the justified epoch and the finalized epoch
greater than or equal to what they were before that call, and so both are
greater than or equal to their initial values at the end of the sequence. -/
theorem updateCheckpoints_epochs_nondecreasing (fg : ForkGraph G) (f : ForkChoiceStore G)
    (before : List (Checkpoint × Checkpoint)) (j c : Checkpoint) :
    ((updateCheckpointsSeq fg f before).justifiedCheckpoint.epoch ≤
        (updateCheckpoints fg (updateCheckpointsSeq fg f before) j c).justifiedCheckpoint.epoch ∧
      (updateCheckpointsSeq fg f before).finalizedCheckpoint.epoch ≤
        (updateCheckpoints fg (updateCheckpointsSeq fg f before) j c).finalizedCheckpoint.epoch) ∧
    (f.justifiedCheckpoint.epoch ≤
        (updateCheckpointsSeq fg f (before ++ [(j, c)])).justifiedCheckpoint.epoch ∧
      f.finalizedCheckpoint.epoch ≤
        (updateCheckpointsSeq fg f (before ++ [(j, c)])).finalizedCheckpoint.epoch) :=
  ⟨⟨updateCheckpoints_justified_epoch_le fg _ j c,
      updateCheckpoints_finalized_epoch_le fg _ j c⟩,
    updateCheckpointsSeq_epoch_le fg _ f⟩

/-- C2: after `updateCheckpoints j c` the justified checkpoint is `j` when
`j.epoch` strictly exceeds the stored justified epoch and the stored value
otherwise, and the finalized checkpoint is `c` when `c.epoch` strictly exceeds
the stored finalized epoch and the stored value otherwise; each decision reads
only its own candidate and stored epoch. The function is total and has no error
result. -/
theorem updateCheckpoints_checkpoints (fg : ForkGraph G) (f : ForkChoiceStore G)
    (j c : Checkpoint) :
    (updateCheckpoints fg f j c).justifiedCheckpoint =
        (if j.epoch > f.justifiedCheckpoint.epoch then j else f.justifiedCheckpoint) ∧
    (updateCheckpoints fg f j c).finalizedCheckpoint =
        (if c.epoch > f.finalizedCheckpoint.epoch then c else f.finalizedCheckpoint) :=
  ⟨updateCheckpoints_justifiedCheckpoint fg f j c,
    updateCheckpoints_finalizedCheckpoint fg f j c⟩

/-- C3: `updateCheckpoints j c` runs `onNewFinalized` with argument `c` exactly
when `c.epoch` strictly exceeds the stored finalized epoch: in that case the
result is the store pruned by `onNewFinalized c` (after the justified update)
with the finalized checkpoint set to `c`; otherwise no prune runs and the
result is the input store with at most `justifiedCheckpoint` replaced, so the
checkpoint-state cache, the children map, the head set and the block graph are
what they were. -/
theorem updateCheckpoints_prune_iff (fg : ForkGraph G) (f : ForkChoiceStore G)
    (j c : Checkpoint) :
    (c.epoch > f.finalizedCheckpoint.epoch →
      updateCheckpoints fg f j c =
        { onNewFinalized fg
            { f with justifiedCheckpoint :=
                if j.epoch > f.justifiedCheckpoint.epoch then j else f.justifiedCheckpoint } c
          with finalizedCheckpoint := c }) ∧
    (¬ c.epoch > f.finalizedCheckpoint.epoch →
      updateCheckpoints fg f j c =
          { f with justifiedCheckpoint :=
              if j.epoch > f.justifiedCheckpoint.epoch then j else f.justifiedCheckpoint } ∧
        (updateCheckpoints fg f j c).checkpointStates = f.checkpointStates ∧
        (updateCheckpoints fg f j c).childrens = f.childrens ∧
        (updateCheckpoints fg f j c).headSet = f.headSet ∧
        (updateCheckpoints fg f j c).forkGraph = f.forkGraph) := by
  constructor
  · intro hc
    unfold updateCheckpoints
    by_cases hj : j.epoch > f.justifiedCheckpoint.epoch <;> simp [hj, hc]
  · intro hc
    unfold updateCheckpoints
    by_cases hj : j.epoch > f.justifiedCheckpoint.epoch <;> simp [hj, hc]

/-- C3, at the sample store: a finalized candidate at epoch 5 runs the prune
(the fork node with parent slot 150 leaves the children map), and a finalized
candidate at epoch 0 leaves the cache, the children map, the head set and the
graph as they were. -/
theorem updateCheckpoints_prune_iff_sample :
    (updateCheckpoints memForkGraph sampleStore ⟨2, 12⟩ ⟨5, 13⟩ =
        { onNewFinalized memForkGraph
            { sampleStore with justifiedCheckpoint := ⟨2, 12⟩ } ⟨5, 13⟩
          with finalizedCheckpoint := ⟨5, 13⟩ } ∧
      (updateCheckpoints memForkGraph sampleStore ⟨2, 12⟩
        ⟨5, 13⟩).childrens.lookup 7 = none) ∧
    (updateCheckpoints memForkGraph sampleStore ⟨2, 12⟩ ⟨0, 13⟩).childrens =
      sampleStore.childrens :=
  ⟨⟨(updateCheckpoints_prune_iff memForkGraph sampleStore ⟨2, 12⟩ ⟨5, 13⟩).1 (by decide),
      by decide⟩,
    ((updateCheckpoints_prune_iff memForkGraph sampleStore ⟨2, 12⟩ ⟨0, 13⟩).2
      (by decide)).2.2.1⟩

/-! ## Finalization prune: claims -/

/-- C4: after `onNewFinalized c` the checkpoint-state cache is the previous
cache restricted to the keys whose epoch is strictly greater than `c.epoch`:
looking up a key with a greater epoch gives what it gave before, and looking
up any other key gives nothing. -/
theorem onNewFinalized_checkpointStates (fg : ForkGraph G) (f : ForkChoiceStore G)
    (c k : Checkpoint) :
    (onNewFinalized fg f c).checkpointStates.lookup k =
      if c.epoch < k.epoch then f.checkpointStates.lookup k else none := by
  show (pruneCheckpointStates c f.checkpointStates.keys f.checkpointStates).lookup k = _
  rw [lookup_pruneCheckpointStates]
  by_cases hk : c.epoch < k.epoch
  · have h1 : ¬ (k ∈ f.checkpointStates.keys ∧ k.epoch ≤ c.epoch) := fun h => by omega
    rw [if_neg h1, if_pos hk]
  · rw [if_neg hk]
    by_cases hmem : k ∈ f.checkpointStates.keys
    · rw [if_pos ⟨hmem, by omega⟩]
    · rw [if_neg (fun h => hmem h.1)]
      exact AList.lookup_eq_none.mpr (fun h => hmem (AList.mem_keys.mp h))

/-- C5: after `onNewFinalized c`, with threshold the product
`c.epoch * SlotsPerEpoch` as the code computes it, in `uint64` arithmetic:
every entry of the children map was an entry before and has `parentSlot` above
the threshold; every previous entry with `parentSlot` at or below the threshold
is gone from the children map and its key is not in the head set; every
previous entry with `parentSlot` above the threshold is kept with the same
value. -/
theorem onNewFinalized_childrens (fg : ForkGraph G) (f : ForkChoiceStore G) (c : Checkpoint) :
    (∀ k n, (onNewFinalized fg f c).childrens.lookup k = some n →
      f.childrens.lookup k = some n ∧
        c.epoch * f.beaconCfg.SlotsPerEpoch % u64 < n.parentSlot) ∧
    (∀ k n, f.childrens.lookup k = some n →
      n.parentSlot ≤ c.epoch * f.beaconCfg.SlotsPerEpoch % u64 →
      (onNewFinalized fg f c).childrens.lookup k = none ∧
        k ∉ (onNewFinalized fg f c).headSet) ∧
    (∀ k n, f.childrens.lookup k = some n →
      c.epoch * f.beaconCfg.SlotsPerEpoch % u64 < n.parentSlot →
      (onNewFinalized fg f c).childrens.lookup k = some n) := by
  have hkey : ∀ k n, f.childrens.lookup k = some n → k ∈ f.childrens.keys := by
    intro k n h
    have : (f.childrens.lookup k).isSome := by rw [h]; rfl
    exact AList.mem_keys.mp (AList.lookup_isSome.mp this)
  have hremoved : ∀ k n, f.childrens.lookup k = some n →
      n.parentSlot ≤ c.epoch * f.beaconCfg.SlotsPerEpoch % u64 →
      (onNewFinalized fg f c).childrens.lookup k = none ∧
        k ∉ (onNewFinalized fg f c).headSet := fun k n h hn =>
    pruneChildrens_removes _ f.childrens.keys (f.childrens, f.headSet) k n h hn (hkey k n h)
  refine ⟨?_, hremoved, ?_⟩
  · intro k n h
    have hold : f.childrens.lookup k = some n :=
      pruneChildrens_lookup_some _ f.childrens.keys (f.childrens, f.headSet) k n h
    refine ⟨hold, ?_⟩
    by_contra hle
    have := (hremoved k n hold (Nat.le_of_not_lt hle)).1
    rw [h] at this
    cases this
  · intro k n h hn
    exact pruneChildrens_keeps _ f.childrens.keys (f.childrens, f.headSet) k n h hn

/-- C5, the scenario of the specification: at 32 slots per epoch, finalizing
epoch 5 (slot 160) removes the fork node with parent slot 150 from the children
map and from the head set, and keeps the node with parent slot 170. -/
theorem onNewFinalized_childrens_sample :
    5 * sampleStore.beaconCfg.SlotsPerEpoch % u64 = 160 ∧
    ((onNewFinalized memForkGraph sampleStore ⟨5, 13⟩).childrens.lookup 7 = none ∧
      7 ∉ (onNewFinalized memForkGraph sampleStore ⟨5, 13⟩).headSet) ∧
    (onNewFinalized memForkGraph sampleStore ⟨5, 13⟩).childrens.lookup 9 =
      some ⟨9, 170, 0, []⟩ :=
  ⟨by decide,
    (onNewFinalized_childrens memForkGraph sampleStore ⟨5, 13⟩).2.1 7 ⟨7, 150, 0, []⟩
      (by decide) (by decide),
    (onNewFinalized_childrens memForkGraph sampleStore ⟨5, 13⟩).2.2 9 ⟨9, 170, 0, []⟩
      (by decide) (by decide)⟩

/-! ## Cache invariant: claims -/

/-- C6, counterexample: from the sample store, whose cache is empty and whose
finalized checkpoint is at epoch 0, one `getCheckpointState` call for the
checkpoint at epoch 0 and block `11` is admitted by the unrestricted
reachability relation and leaves a cache entry whose epoch does not exceed the
finalized epoch. -/
theorem cache_above_finalized_counterexample :
    sampleStore.checkpointStates = ∅ ∧
    Reachable memForkGraph sampleProcessSlots (fun _ _ => True) sampleStore
      (getCheckpointState memForkGraph sampleProcessSlots sampleStore ⟨0, 11⟩).1 ∧
    ((getCheckpointState memForkGraph sampleProcessSlots sampleStore
      ⟨0, 11⟩).1.checkpointStates.lookup ⟨0, 11⟩).isSome = true ∧
    (⟨0, 11⟩ : Checkpoint).epoch ≤
      (getCheckpointState memForkGraph sampleProcessSlots sampleStore
        ⟨0, 11⟩).1.finalizedCheckpoint.epoch :=
  ⟨rfl, Reachable.getState _ _ Reachable.start trivial, by decide, by decide⟩

/-- C6, amended: in every store reachable from a store with an empty
checkpoint-state cache by `updateCheckpoints`, `updateUnrealizedCheckpoints`
and `getCheckpointState` calls in which every `getCheckpointState` call is for
a checkpoint whose epoch is strictly greater than the finalized epoch at the
time of the call, every cache entry has an epoch strictly greater than the
current finalized epoch. -/
theorem cache_above_finalized (fg : ForkGraph G) (processSlots : SlotProcessor)
    (f0 f : ForkChoiceStore G) (h0 : f0.checkpointStates = ∅)
    (h : Reachable fg processSlots (fun s c => s.finalizedCheckpoint.epoch < c.epoch) f0 f) :
    ∀ k cs, f.checkpointStates.lookup k = some cs → f.finalizedCheckpoint.epoch < k.epoch := by
  induction h with
  | start =>
    intro k cs hl
    rw [h0, AList.lookup_empty] at hl
    cases hl
  | update s j c _ ih =>
    intro k cs hl
    rw [updateCheckpoints_checkpointStates] at hl
    rw [updateCheckpoints_finalizedCheckpoint]
    by_cases hc : c.epoch > s.finalizedCheckpoint.epoch
    · rw [if_pos hc, lookup_pruneCheckpointStates] at hl
      rw [if_pos hc]
      by_cases hk : k ∈ s.checkpointStates.keys ∧ k.epoch ≤ c.epoch
      · rw [if_pos hk] at hl
        cases hl
      · rw [if_neg hk] at hl
        have hmem : k ∈ s.checkpointStates.keys := by
          have : (s.checkpointStates.lookup k).isSome := by rw [hl]; rfl
          exact AList.mem_keys.mp (AList.lookup_isSome.mp this)
        by_contra hlt
        exact hk ⟨hmem, Nat.le_of_not_lt hlt⟩
    · rw [if_neg hc] at hl
      rw [if_neg hc]
      exact ih k cs hl
  | updateUnrealized s j c _ ih =>
    intro k cs hl
    rw [(updateUnrealizedCheckpoints_frame s j c).2] at hl
    rw [(updateUnrealizedCheckpoints_frame s j c).1]
    exact ih k cs hl
  | getState s c _ hallowed ih =>
    intro k cs hl
    rw [getCheckpointState_finalizedCheckpoint]
    rcases getCheckpointState_checkpointStates fg processSlots s c with hsame | ⟨cs', hins⟩
    · rw [hsame] at hl
      exact ih k cs hl
    · rw [hins] at hl
      by_cases hk : k = c
      · subst hk
        exact hallowed
      · rw [AList.lookup_insert_ne hk] at hl
        exact ih k cs hl

/-- C6, amended, at the sample store: after a `getCheckpointState` call for a
checkpoint at epoch 1 and an `updateCheckpoints` call that finalizes epoch 1,
every cache entry lies above the finalized epoch. -/
theorem cache_above_finalized_sample :
    sampleStore.checkpointStates = ∅ ∧
    ∀ k cs,
      (updateCheckpoints memForkGraph
        (getCheckpointState memForkGraph sampleProcessSlots sampleStore ⟨1, 11⟩).1
        ⟨1, 11⟩ ⟨1, 11⟩).checkpointStates.lookup k = some cs →
      (updateCheckpoints memForkGraph
        (getCheckpointState memForkGraph sampleProcessSlots sampleStore ⟨1, 11⟩).1
        ⟨1, 11⟩ ⟨1, 11⟩).finalizedCheckpoint.epoch < k.epoch :=
  ⟨rfl, cache_above_finalized memForkGraph sampleProcessSlots sampleStore _ rfl
    (Reachable.update _ _ _ (Reachable.getState _ _ Reachable.start (by decide)))⟩

/-! ## Ancestor walk: claims -/

/-- C7: when the header of `root` is present and the requested slot is that
header's own slot, `Ancestor` returns `root`, whatever the fuel. -/
theorem Ancestor_own_slot (fg : ForkGraph G) (fuel : Nat) (f : ForkChoiceStore G)
    (root : Hash) (header : BeaconBlockHeader)
    (hroot : fg.GetHeader f.forkGraph root = some header) :
    Ancestor fg fuel f root header.slot = some root :=
  Ancestor_of_slot_le fg fuel f root header.slot header hroot (Nat.le_refl _)

/-- C7, at the sample store: block `12` has slot 2 and `Ancestor 12 2` is
`12`. -/
theorem Ancestor_own_slot_sample :
    memForkGraph.GetHeader sampleStore.forkGraph 12 = some ⟨2, 11, 0, 0⟩ ∧
    Ancestor memForkGraph 0 sampleStore 12 2 = some 12 :=
  ⟨by decide, Ancestor_own_slot memForkGraph 0 sampleStore 12 ⟨2, 11, 0, 0⟩ (by decide)⟩

/-- C8, counterexample: block `13` of the sample store is present with slot 3;
for the requested slot 6, which is greater, `Ancestor` returns `13` for every
fuel, and `13` is not the zero hash. -/
theorem Ancestor_above_slot_counterexample :
    memForkGraph.GetHeader sampleStore.forkGraph 13 = some ⟨3, 12, 0, 0⟩ ∧
    (3 : Nat) < 6 ∧
    (∀ fuel, Ancestor memForkGraph fuel sampleStore 13 6 = some 13) ∧
    (13 : Hash) ≠ zeroHash :=
  ⟨by decide, by decide,
    fun fuel => Ancestor_of_slot_le memForkGraph fuel sampleStore 13 6 ⟨3, 12, 0, 0⟩
      (by decide) (by decide),
    by decide⟩

/-- C8, amended: when the header of `root` is present and the requested slot is
strictly greater than that header's slot, `Ancestor` returns `root` itself,
whatever the fuel. -/
theorem Ancestor_above_slot (fg : ForkGraph G) (fuel : Nat) (f : ForkChoiceStore G)
    (root : Hash) (slot : Nat) (header : BeaconBlockHeader)
    (hroot : fg.GetHeader f.forkGraph root = some header) (hslot : header.slot < slot) :
    Ancestor fg fuel f root slot = some root :=
  Ancestor_of_slot_le fg fuel f root slot header hroot (Nat.le_of_lt hslot)

/-- C8, amended, at the sample store: block `12` has slot 2 and `Ancestor 12 9`
is `12`. -/
theorem Ancestor_above_slot_sample :
    memForkGraph.GetHeader sampleStore.forkGraph 12 = some ⟨2, 11, 0, 0⟩ ∧
    Ancestor memForkGraph 0 sampleStore 12 9 = some 12 :=
  ⟨by decide,
    Ancestor_above_slot memForkGraph 0 sampleStore 12 9 ⟨2, 11, 0, 0⟩ (by decide) (by decide)⟩

/-- C9: if the walk of `Ancestor root slot` reaches, after `n` parent links
taken from present headers with slot above `slot`, a root `r` whose header is
missing (`n = 0`: the header of `root` itself is missing), then `Ancestor`
returns the zero hash for every fuel of at least `n`; the model has no failing
or panicking outcome on this path. -/
theorem Ancestor_missing_header (fg : ForkGraph G) (f : ForkChoiceStore G) (root : Hash)
    (slot n : Nat) (r : Hash) (hwalk : Visits fg f.forkGraph slot root n r)
    (hmissing : fg.GetHeader f.forkGraph r = none) (fuel : Nat) (hfuel : n ≤ fuel) :
    Ancestor fg fuel f root slot = some zeroHash := by
  unfold Ancestor
  cases hroot : fg.GetHeader f.forkGraph root with
  | none => rfl
  | some header =>
    exact ancestorLoop_of_visits_missing fg f.forkGraph slot n root header r hroot hwalk
      hmissing fuel hfuel

/-- C9, at the sample store: the walk from block `13` for slot 0 passes blocks
`12` and `11` and reaches the missing parent `10` after three links;
`Ancestor 13 0` is the zero hash. -/
theorem Ancestor_missing_header_sample :
    Visits memForkGraph sampleStore.forkGraph 0 13 3 10 ∧
    memForkGraph.GetHeader sampleStore.forkGraph 10 = none ∧
    Ancestor memForkGraph 3 sampleStore 13 0 = some zeroHash :=
  have hwalk : Visits memForkGraph sampleStore.forkGraph 0 13 3 10 :=
    Visits.next 13 ⟨3, 12, 0, 0⟩ 2 10 (by decide) (by decide)
      (Visits.next 12 ⟨2, 11, 0, 0⟩ 1 10 (by decide) (by decide)
        (Visits.next 11 ⟨1, 10, 0, 0⟩ 0 10 (by decide) (by decide) (Visits.here 10)))
  ⟨hwalk, by decide,
    Ancestor_missing_header memForkGraph sampleStore 13 0 3 10 hwalk (by decide) 3
      (Nat.le_refl 3)⟩

/-- C10: when every root the walk of `Ancestor root slot` visits has its header
present, `Ancestor` with fuel `fuel` returns `r` exactly when `r` is reached
from `root` by some `n ≤ fuel` parent links, each taken from a header with slot
above `slot`, and the header of `r` has slot at most `slot`: `r` is the first
header on the parent chain of `root` whose slot does not exceed `slot`. -/
theorem Ancestor_first_not_above (fg : ForkGraph G) (f : ForkChoiceStore G) (root : Hash)
    (slot : Nat)
    (hpresent : ∀ n x, Visits fg f.forkGraph slot root n x →
      (fg.GetHeader f.forkGraph x).isSome = true)
    (fuel : Nat) (r : Hash) :
    Ancestor fg fuel f root slot = some r ↔
      ∃ n last, n ≤ fuel ∧ Visits fg f.forkGraph slot root n r ∧
        fg.GetHeader f.forkGraph r = some last ∧ last.slot ≤ slot := by
  obtain ⟨header, hroot⟩ := Option.isSome_iff_exists.mp (hpresent 0 root (Visits.here root))
  constructor
  · intro hres
    unfold Ancestor at hres
    rw [hroot] at hres
    rcases ancestorLoop_some_cases fg f.forkGraph slot fuel root header r hroot hres with
      hfound | ⟨_, n, x, _, hv, hx⟩
    · exact hfound
    · have := hpresent n x hv
      rw [hx] at this
      cases this
  · rintro ⟨n, last, hn, hv, hlast, hle⟩
    unfold Ancestor
    rw [hroot]
    exact ancestorLoop_of_visits_present fg f.forkGraph slot n root header r last hroot hv
      hlast hle fuel hn

theorem sample_walk_present (n : Nat) (x : Hash)
    (h : Visits memForkGraph sampleStore.forkGraph 1 13 n x) :
    (memForkGraph.GetHeader sampleStore.forkGraph x).isSome = true := by
  have h13 : memForkGraph.GetHeader sampleStore.forkGraph 13 = some ⟨3, 12, 0, 0⟩ := by decide
  have h12 : memForkGraph.GetHeader sampleStore.forkGraph 12 = some ⟨2, 11, 0, 0⟩ := by decide
  have h11 : memForkGraph.GetHeader sampleStore.forkGraph 11 = some ⟨1, 10, 0, 0⟩ := by decide
  cases h with
  | here => decide
  | next _ header _ _ hroot _ hrest =>
    rw [h13] at hroot
    cases hroot
    cases hrest with
    | here => decide
    | next _ header _ _ hroot _ hrest =>
      rw [h12] at hroot
      cases hroot
      cases hrest with
      | here => decide
      | next _ header _ _ hroot hgt _ =>
        rw [h11] at hroot
        cases hroot
        exact absurd hgt (by decide)

/-- C10, at the sample store: every root visited from block `13` for slot 1 is
present, and `Ancestor 13 1` is block `11`, reached after two parent links. -/
theorem Ancestor_first_not_above_sample :
    (∀ n x, Visits memForkGraph sampleStore.forkGraph 1 13 n x →
      (memForkGraph.GetHeader sampleStore.forkGraph x).isSome = true) ∧
    Ancestor memForkGraph 2 sampleStore 13 1 = some 11 ∧
    ∃ n last, n ≤ 2 ∧ Visits memForkGraph sampleStore.forkGraph 1 13 n 11 ∧
      memForkGraph.GetHeader sampleStore.forkGraph 11 = some last ∧ last.slot ≤ 1 :=
  ⟨sample_walk_present, by decide,
    (Ancestor_first_not_above memForkGraph sampleStore 13 1 sample_walk_present 2 11).mp
      (by decide)⟩

/-! ## Checkpoint-state cache: claims -/

theorem getCheckpointState_ok_lookup (fg : ForkGraph G) (processSlots : SlotProcessor)
    (f : ForkChoiceStore G) (c : Checkpoint) (cs : checkpointState)
    (h : (getCheckpointState fg processSlots f c).2 = .ok cs) :
    (getCheckpointState fg processSlots f c).1.checkpointStates.lookup c = some cs := by
  revert h
  simp only [getCheckpointState]
  split
  · rename_i state hl
    intro h
    cases h
    exact hl
  · split
    · intro h; cases h
    · intro h; cases h
    · split
      · intro h; cases h
      · intro h
        cases h
        exact AList.lookup_insert _

theorem getCheckpointState_of_lookup (fg : ForkGraph G) (processSlots : SlotProcessor)
    (f : ForkChoiceStore G) (c : Checkpoint) (cs : checkpointState)
    (h : f.checkpointStates.lookup c = some cs) :
    getCheckpointState fg processSlots f c = (f, .ok cs) := by
  simp only [getCheckpointState, h]

/-- C11: if `getCheckpointState c` succeeds with checkpoint state `cs`, then `cs`
is the cache entry of `c` in the resulting store, and a second
`getCheckpointState c` on that store returns `cs` again and leaves the whole
store, the cache included, as it is, whatever graph implementation and slot
processor it is given: the second call is answered from the cache and uses
neither the graph's `GetState` nor slot processing. -/
theorem getCheckpointState_cache_hit (fg : ForkGraph G) (processSlots : SlotProcessor)
    (f : ForkChoiceStore G) (c : Checkpoint) (cs : checkpointState)
    (h : (getCheckpointState fg processSlots f c).2 = .ok cs) :
    (getCheckpointState fg processSlots f c).1.checkpointStates.lookup c = some cs ∧
    ∀ (fg2 : ForkGraph G) (processSlots2 : SlotProcessor),
      getCheckpointState fg2 processSlots2 (getCheckpointState fg processSlots f c).1 c =
        ((getCheckpointState fg processSlots f c).1, .ok cs) := by
  have hl := getCheckpointState_ok_lookup fg processSlots f c cs h
  exact ⟨hl, fun fg2 processSlots2 => getCheckpointState_of_lookup fg2 processSlots2 _ c cs hl⟩

/-- C11, at the sample store with a recording graph: the first call for the
checkpoint at epoch 1 and block `11` fetches one state from the graph; the
second call, given a slot processor that always fails, returns the same
checkpoint state and leaves the store as it is, so the log of graph calls
still has that one entry. -/
theorem getCheckpointState_cache_hit_sample :
    (getCheckpointState (recordingForkGraph memForkGraph) sampleProcessSlots
        (withLog sampleStore []) ⟨1, 11⟩).2 =
      .ok (newCheckpointState ⟨0, 12, 32⟩ [] [] [] 0 ⟨0, 0, 0⟩ 0 0) ∧
    (getCheckpointState (recordingForkGraph memForkGraph) sampleProcessSlots
        (withLog sampleStore []) ⟨1, 11⟩).1.forkGraph.2 = [GraphCall.getState 11 true] ∧
    getCheckpointState (recordingForkGraph memForkGraph) failingProcessSlots
        (getCheckpointState (recordingForkGraph memForkGraph) sampleProcessSlots
          (withLog sampleStore []) ⟨1, 11⟩).1 ⟨1, 11⟩ =
      ((getCheckpointState (recordingForkGraph memForkGraph) sampleProcessSlots
          (withLog sampleStore []) ⟨1, 11⟩).1,
        .ok (newCheckpointState ⟨0, 12, 32⟩ [] [] [] 0 ⟨0, 0, 0⟩ 0 0)) :=
  ⟨rfl, rfl,
    (getCheckpointState_cache_hit (recordingForkGraph memForkGraph) sampleProcessSlots
      (withLog sampleStore []) ⟨1, 11⟩ _ rfl).2 (recordingForkGraph memForkGraph)
      failingProcessSlots⟩

/-- C12: for a checkpoint `c` that is not in the cache and whose base state
`base` is returned by the graph, with `start` the product
`c.epoch * SlotsPerEpoch` as the code computes it, in `uint64` arithmetic: when
`base.slot < start` the result of `getCheckpointState c` is that of the slot
processor called on `base` with target `start`, its error or the snapshot of
the state it returns; when `base.slot` is not below `start` the result is the
snapshot of `base` and does not depend on the slot processor. The snapshot holds
the validators, RANDAO mixes, genesis-validators root, fork, total active
balance and epoch of the state it is taken from. -/
theorem getCheckpointState_advance (fg : ForkGraph G) (processSlots : SlotProcessor)
    (f : ForkChoiceStore G) (c : Checkpoint) (base : BeaconState)
    (hmiss : f.checkpointStates.lookup c = none)
    (hbase : (fg.GetState f.forkGraph c.blockRoot true).2 = .ok (some base)) :
    (base.slot < c.epoch * f.beaconCfg.SlotsPerEpoch % u64 →
      (getCheckpointState fg processSlots f c).2 =
        (processSlots base (c.epoch * f.beaconCfg.SlotsPerEpoch % u64)).map
          (fun st => newCheckpointState f.beaconCfg f.anchorPublicKeys st.validators
            st.randaoMixes st.genesisValidatorsRoot st.fork st.totalActiveBalance st.epoch)) ∧
    (¬ base.slot < c.epoch * f.beaconCfg.SlotsPerEpoch % u64 →
      (getCheckpointState fg processSlots f c).2 =
        .ok (newCheckpointState f.beaconCfg f.anchorPublicKeys base.validators
          base.randaoMixes base.genesisValidatorsRoot base.fork base.totalActiveBalance
          base.epoch)) := by
  constructor
  · intro hlt
    simp only [getCheckpointState, hmiss, hbase, computeStartSlotAtEpoch, hlt, if_true]
    cases processSlots base (c.epoch * f.beaconCfg.SlotsPerEpoch % u64) <;> rfl
  · intro hge
    simp only [getCheckpointState, hmiss, hbase, computeStartSlotAtEpoch, hge, if_false]

/-- C12, at the sample store: the state of block `11` is at slot 1, below the
start slot 32 of epoch 1, so the checkpoint state for epoch 1 is the snapshot of
what the slot processor returns for target 32; for epoch 0 the start slot is 0
and the snapshot is taken from the stored state, also when the slot processor
always fails. -/
theorem getCheckpointState_advance_sample :
    (getCheckpointState memForkGraph sampleProcessSlots sampleStore ⟨1, 11⟩).2 =
      (sampleProcessSlots ⟨1, [], [], 0, ⟨0, 0, 0⟩, 0, 0⟩ (1 * 32 % u64)).map
        (fun st => newCheckpointState ⟨0, 12, 32⟩ [] st.validators st.randaoMixes
          st.genesisValidatorsRoot st.fork st.totalActiveBalance st.epoch) ∧
    (getCheckpointState memForkGraph failingProcessSlots sampleStore ⟨0, 11⟩).2 =
      .ok (newCheckpointState ⟨0, 12, 32⟩ [] [] [] 0 ⟨0, 0, 0⟩ 0 0) :=
  ⟨(getCheckpointState_advance memForkGraph sampleProcessSlots sampleStore ⟨1, 11⟩
      ⟨1, [], [], 0, ⟨0, 0, 0⟩, 0, 0⟩ rfl rfl).1 (by decide),
    (getCheckpointState_advance memForkGraph failingProcessSlots sampleStore ⟨0, 11⟩
      ⟨1, [], [], 0, ⟨0, 0, 0⟩, 0, 0⟩ rfl rfl).2 (by decide)⟩

/-- C13: for a checkpoint `c` that is not in the cache, `getCheckpointState c`
returns an error, and with it no checkpoint state, and leaves the cache as it
was in each of these cases: the graph's `GetState` returns an error (the same
error is returned); it returns a nil state without error; it returns a state
below the start slot and the slot processor returns an error for it (the same
error is returned). -/
theorem getCheckpointState_failure (fg : ForkGraph G) (processSlots : SlotProcessor)
    (f : ForkChoiceStore G) (c : Checkpoint) (hmiss : f.checkpointStates.lookup c = none) :
    (∀ err, (fg.GetState f.forkGraph c.blockRoot true).2 = .error err →
      (getCheckpointState fg processSlots f c).2 = .error err ∧
        (getCheckpointState fg processSlots f c).1.checkpointStates = f.checkpointStates) ∧
    ((fg.GetState f.forkGraph c.blockRoot true).2 = .ok none →
      (∃ err, (getCheckpointState fg processSlots f c).2 = .error err) ∧
        (getCheckpointState fg processSlots f c).1.checkpointStates = f.checkpointStates) ∧
    (∀ base err, (fg.GetState f.forkGraph c.blockRoot true).2 = .ok (some base) →
      base.slot < c.epoch * f.beaconCfg.SlotsPerEpoch % u64 →
      processSlots base (c.epoch * f.beaconCfg.SlotsPerEpoch % u64) = .error err →
      (getCheckpointState fg processSlots f c).2 = .error err ∧
        (getCheckpointState fg processSlots f c).1.checkpointStates = f.checkpointStates) := by
  refine ⟨?_, ?_, ?_⟩
  · intro err hfetch
    simp only [getCheckpointState, hmiss, hfetch, and_self]
  · intro hfetch
    simp only [getCheckpointState, hmiss, hfetch, and_true]
    exact ⟨_, rfl⟩
  · intro base err hfetch hlt hproc
    simp only [getCheckpointState, hmiss, hfetch, computeStartSlotAtEpoch, hlt, if_true, hproc,
      and_self]

/-- C13, at the sample store: block `99` has no state in the graph, so the call
for a checkpoint at block `99` fails and the cache stays empty; the state of
block `11` is below the start slot of epoch 1, so with a slot processor that
always fails the call for epoch 1 fails with that error and the cache stays
empty. -/
theorem getCheckpointState_failure_sample :
    ((∃ err, (getCheckpointState memForkGraph sampleProcessSlots sampleStore ⟨0, 99⟩).2 =
        .error err) ∧
      (getCheckpointState memForkGraph sampleProcessSlots sampleStore
        ⟨0, 99⟩).1.checkpointStates = sampleStore.checkpointStates) ∧
    ((getCheckpointState memForkGraph failingProcessSlots sampleStore ⟨1, 11⟩).2 =
        .error "slot processing failed" ∧
      (getCheckpointState memForkGraph failingProcessSlots sampleStore
        ⟨1, 11⟩).1.checkpointStates = sampleStore.checkpointStates) :=
  ⟨(getCheckpointState_failure memForkGraph sampleProcessSlots sampleStore ⟨0, 99⟩ rfl).2.1 rfl,
    (getCheckpointState_failure memForkGraph failingProcessSlots sampleStore ⟨1, 11⟩ rfl).2.2
      ⟨1, [], [], 0, ⟨0, 0, 0⟩, 0, 0⟩ "slot processing failed" rfl (by decide) rfl⟩

/-! ## Unrealized checkpoints, clock and graph prune: claims -/

/-- C14: `updateUnrealizedCheckpoints j c` returns the input store with
`unrealizedJustifiedCheckpoint` replaced by `j` exactly when `j.epoch` strictly
exceeds its stored epoch and `unrealizedFinalizedCheckpoint` replaced by `c`
exactly when `c.epoch` strictly exceeds its stored epoch; the justified and
finalized checkpoints, the checkpoint-state cache, the children map, the head
set and the block graph are what they were. The function does not take the
graph interface, so it cannot prune. -/
theorem updateUnrealizedCheckpoints_effect (f : ForkChoiceStore G) (j c : Checkpoint) :
    updateUnrealizedCheckpoints f j c =
      { f with
        unrealizedJustifiedCheckpoint :=
          if j.epoch > f.unrealizedJustifiedCheckpoint.epoch then j
          else f.unrealizedJustifiedCheckpoint
        unrealizedFinalizedCheckpoint :=
          if c.epoch > f.unrealizedFinalizedCheckpoint.epoch then c
          else f.unrealizedFinalizedCheckpoint } ∧
    (updateUnrealizedCheckpoints f j c).justifiedCheckpoint = f.justifiedCheckpoint ∧
    (updateUnrealizedCheckpoints f j c).finalizedCheckpoint = f.finalizedCheckpoint ∧
    (updateUnrealizedCheckpoints f j c).checkpointStates = f.checkpointStates ∧
    (updateUnrealizedCheckpoints f j c).childrens = f.childrens ∧
    (updateUnrealizedCheckpoints f j c).headSet = f.headSet ∧
    (updateUnrealizedCheckpoints f j c).forkGraph = f.forkGraph := by
  unfold updateUnrealizedCheckpoints
  by_cases hj : j.epoch > f.unrealizedJustifiedCheckpoint.epoch <;>
    by_cases hc : c.epoch > f.unrealizedFinalizedCheckpoint.epoch <;>
    simp [hj, hc]

/-- C15: for a store whose `SecondsPerSlot` is positive and whose time, a
`uint64` value, is at least its genesis time, `Slot` returns
`GenesisSlot + (time - genesisTime) / SecondsPerSlot`, the sum taken in `uint64`
arithmetic. `Slot` is a function of the store that returns only the slot: it
has no store to change. -/
theorem Slot_eq (f : ForkChoiceStore G) (hseconds : 0 < f.beaconCfg.SecondsPerSlot)
    (htime : f.genesisTime ≤ f.time) (hu64 : f.time < u64) :
    Slot f =
      some ((f.beaconCfg.GenesisSlot
        + (f.time - f.genesisTime) / f.beaconCfg.SecondsPerSlot) % u64) := by
  have hsub : (f.time % u64 + u64 - f.genesisTime % u64) % u64 = f.time - f.genesisTime := by
    rw [Nat.mod_eq_of_lt hu64, Nat.mod_eq_of_lt (Nat.lt_of_le_of_lt htime hu64)]
    have h1 : f.time + u64 - f.genesisTime = (f.time - f.genesisTime) + u64 := by omega
    rw [h1, Nat.add_mod_right]
    exact Nat.mod_eq_of_lt (by omega)
  unfold Slot
  rw [if_neg (Nat.pos_iff_ne_zero.mp hseconds), hsub]

/-- C15, at the sample store with time 1000 and genesis time 400: at 12 seconds
per slot the slot is 50. -/
theorem Slot_eq_sample :
    Slot { sampleStore with time := 1000, genesisTime := 400 } = some 50 :=
  Slot_eq { sampleStore with time := 1000, genesisTime := 400 } (by decide) (by decide)
    (by decide)

theorem pruneCheckpointStatesTraced_eq (c : Checkpoint) (keys : List Checkpoint)
    (st : AList (fun _ : Checkpoint => checkpointState) × List StoreEvent) :
    keys.foldl (pruneCheckpointStateStepTraced c) st =
      (pruneCheckpointStates c keys st.1,
        st.2 ++ (keys.filter (fun k => decide (k.epoch ≤ c.epoch))).map
          StoreEvent.deleteCheckpointState) := by
  induction keys generalizing st with
  | nil => simp [pruneCheckpointStates]
  | cons a rest ih =>
    rw [List.foldl_cons, ih]
    have hstep : pruneCheckpointStates c (a :: rest) st.1 =
        pruneCheckpointStates c rest (pruneCheckpointStateStep c st.1 a) := rfl
    rw [hstep]
    unfold pruneCheckpointStateStepTraced pruneCheckpointStateStep
    by_cases ha : a.epoch ≤ c.epoch
    · simp [ha, List.filter_cons]
    · simp [ha, List.filter_cons]

theorem childrenDeletes_cons (k : Hash) (rest : List Hash) :
    childrenDeletes (k :: rest) =
      [StoreEvent.deleteChildren k, StoreEvent.deleteHeadSet k] ++ childrenDeletes rest := rfl

theorem pruneChildrensTraced_eq (threshold : Nat) (keys : List Hash) (hnodup : keys.Nodup)
    (st : (AList (fun _ : Hash => ForkNode) × Finset Hash) × List StoreEvent) :
    keys.foldl (pruneChildrenStepTraced threshold) st =
      (pruneChildrens threshold keys st.1,
        st.2 ++ childrenDeletes (keys.filter (evictsChildren threshold st.1.1))) := by
  induction keys generalizing st with
  | nil => simp [pruneChildrens, childrenDeletes]
  | cons a rest ih =>
    obtain ⟨hnotin, hrest⟩ := List.nodup_cons.mp hnodup
    rw [List.foldl_cons, ih hrest, pruneChildrens_cons]
    cases hl : st.1.1.lookup a with
    | none =>
      have hstepT : pruneChildrenStepTraced threshold st a = st := by
        unfold pruneChildrenStepTraced
        rw [hl]
      have hstep : pruneChildrenStep threshold st.1 a = st.1 := by
        unfold pruneChildrenStep
        rw [hl]
      have hev : evictsChildren threshold st.1.1 a = false := by
        unfold evictsChildren
        rw [hl]
      rw [hstepT, hstep, List.filter_cons, hev]
      simp
    | some n =>
      by_cases hn : n.parentSlot ≤ threshold
      · have hstepT : pruneChildrenStepTraced threshold st a =
            ((st.1.1.erase a, st.1.2.erase a),
              st.2 ++ [StoreEvent.deleteChildren a, StoreEvent.deleteHeadSet a]) := by
          unfold pruneChildrenStepTraced
          rw [hl]
          simp only [if_pos hn]
        have hstep : pruneChildrenStep threshold st.1 a =
            (st.1.1.erase a, st.1.2.erase a) := by
          unfold pruneChildrenStep
          rw [hl]
          simp only [if_pos hn]
        have hev : evictsChildren threshold st.1.1 a = true := by
          unfold evictsChildren
          rw [hl]
          exact decide_eq_true hn
        have hfilter : rest.filter (evictsChildren threshold (st.1.1.erase a)) =
            rest.filter (evictsChildren threshold st.1.1) := by
          apply List.filter_congr
          intro k hk
          have hka : k ≠ a := fun h => hnotin (h ▸ hk)
          unfold evictsChildren
          rw [AList.lookup_erase_ne hka]
        rw [hstepT, hstep, List.filter_cons, hev]
        simp only [if_true, hfilter, childrenDeletes_cons, List.append_assoc]
      · have hstepT : pruneChildrenStepTraced threshold st a = st := by
          unfold pruneChildrenStepTraced
          rw [hl]
          simp only [if_neg hn]
        have hstep : pruneChildrenStep threshold st.1 a = st.1 := by
          unfold pruneChildrenStep
          rw [hl]
          simp only [if_neg hn]
        have hev : evictsChildren threshold st.1.1 a = false := by
          unfold evictsChildren
          rw [hl]
          exact decide_eq_false hn
        rw [hstepT, hstep, List.filter_cons, hev]
        simp

theorem childrenDeletes_no_prune (keys : List Hash) (slot : Nat) :
    StoreEvent.pruneGraph slot ∉ childrenDeletes keys := by
  induction keys with
  | nil => simp [childrenDeletes]
  | cons k rest ih => simp [childrenDeletes, ih]

/-- C16: `onNewFinalized c` calls the graph's `Prune` exactly once, with
argument `c.epoch * SlotsPerEpoch` (the `uint64` product), after both
evictions. For every graph implementation the result is the store with both
evictions applied and the graph untouched, with that one `Prune` applied to its
graph, and a recording graph logs exactly that one `Prune` call. In the log of
the writes of `onNewFinalized`, kept in program order, the call adds, in this
order: one `delete` for each cached checkpoint whose epoch does not exceed
`c.epoch`; the children and head-set `delete`s for each fork node whose
`parentSlot` does not exceed the threshold; and last the single `Prune`, no
`Prune` being among the writes before it. The store computed along with the log
is `onNewFinalized c`. -/
theorem onNewFinalized_prune_once (fg : ForkGraph G) (f : ForkChoiceStore G) (c : Checkpoint) :
    onNewFinalized fg f c =
      { onNewFinalizedEvictions f c with
        forkGraph := fg.Prune (onNewFinalizedEvictions f c).forkGraph
          (c.epoch * f.beaconCfg.SlotsPerEpoch % u64) } ∧
    (onNewFinalizedEvictions f c).forkGraph = f.forkGraph ∧
    (∀ log : List GraphCall,
      (onNewFinalized (recordingForkGraph fg) (withLog f log) c).forkGraph =
        (fg.Prune f.forkGraph (c.epoch * f.beaconCfg.SlotsPerEpoch % u64),
          log ++ [GraphCall.prune (c.epoch * f.beaconCfg.SlotsPerEpoch % u64)])) ∧
    (∀ log : List StoreEvent,
      (onNewFinalizedTraced fg f c log).1 = onNewFinalized fg f c ∧
      (onNewFinalizedTraced fg f c log).2 =
        log ++
          ((f.checkpointStates.keys.filter (fun k => decide (k.epoch ≤ c.epoch))).map
              StoreEvent.deleteCheckpointState ++
            childrenDeletes (f.childrens.keys.filter
              (evictsChildren (c.epoch * f.beaconCfg.SlotsPerEpoch % u64) f.childrens))) ++
          [StoreEvent.pruneGraph (c.epoch * f.beaconCfg.SlotsPerEpoch % u64)]) ∧
    (∀ slot, StoreEvent.pruneGraph slot ∉
      (f.checkpointStates.keys.filter (fun k => decide (k.epoch ≤ c.epoch))).map
          StoreEvent.deleteCheckpointState ++
        childrenDeletes (f.childrens.keys.filter
          (evictsChildren (c.epoch * f.beaconCfg.SlotsPerEpoch % u64) f.childrens))) := by
  refine ⟨rfl, rfl, fun _ => rfl, ?_, ?_⟩
  · intro log
    have h1 := pruneCheckpointStatesTraced_eq c f.checkpointStates.keys (f.checkpointStates, log)
    have h2 := pruneChildrensTraced_eq (c.epoch * f.beaconCfg.SlotsPerEpoch % u64)
      f.childrens.keys f.childrens.keys_nodup
      ((f.childrens, f.headSet),
        log ++ (f.checkpointStates.keys.filter (fun k => decide (k.epoch ≤ c.epoch))).map
          StoreEvent.deleteCheckpointState)
    constructor
    · simp only [onNewFinalizedTraced, h1, h2]
      rfl
    · simp only [onNewFinalizedTraced, h1, h2, List.append_assoc]
  · intro slot hmem
    rcases List.mem_append.mp hmem with h | h
    · obtain ⟨k, _, hk⟩ := List.mem_map.mp h
      cases hk
    · exact childrenDeletes_no_prune _ slot h

/-- C16, at the sample store after a `getCheckpointState` call that caches the
checkpoint at epoch 1 and block `11`: finalizing epoch 5 at 32 slots per epoch
logs the `delete` of that cache entry, the two `delete`s of the fork node `7`
(parent slot 150), and then the single `Prune 160`; on a recording graph with an
empty log the log of graph calls is the single entry `Prune 160`. -/
theorem onNewFinalized_prune_once_sample :
    (onNewFinalizedTraced memForkGraph
        (getCheckpointState memForkGraph sampleProcessSlots sampleStore ⟨1, 11⟩).1
        ⟨5, 13⟩ []).2 =
      [StoreEvent.deleteCheckpointState ⟨1, 11⟩, StoreEvent.deleteChildren 7,
        StoreEvent.deleteHeadSet 7, StoreEvent.pruneGraph 160] ∧
    (onNewFinalized (recordingForkGraph memForkGraph) (withLog sampleStore [])
      ⟨5, 13⟩).forkGraph.2 = [GraphCall.prune 160] :=
  ⟨((onNewFinalized_prune_once memForkGraph
      (getCheckpointState memForkGraph sampleProcessSlots sampleStore ⟨1, 11⟩).1
      ⟨5, 13⟩).2.2.2.1 []).2.trans (by decide),
    congrArg Prod.snd ((onNewFinalized_prune_once memForkGraph sampleStore ⟨5, 13⟩).2.2.1 [])⟩

/-! ## Ancestor walk: termination -/

theorem ancestorLoop_terminates (fg : ForkGraph G) (g : G) (slot : Nat)
    (hdecreasing : ∀ r header parent, fg.GetHeader g r = some header →
      fg.GetHeader g header.parentRoot = some parent → parent.slot < header.slot)
    (fuel : Nat) :
    ∀ (root : Hash) (header : BeaconBlockHeader), fg.GetHeader g root = some header →
      header.slot - slot ≤ fuel → ∃ r, ancestorLoop fg g slot fuel root header = some r := by
  induction fuel with
  | zero =>
    intro root header _ hfuel
    exact ⟨root, ancestorLoop_of_slot_le fg g slot 0 root header (by omega)⟩
  | succ fuel ih =>
    intro root header hroot hfuel
    by_cases hgt : slot < header.slot
    · cases hp : fg.GetHeader g header.parentRoot with
      | none =>
        exact ⟨zeroHash, by simp only [ancestorLoop, gt_iff_lt, hgt, if_true, hp]⟩
      | some parent =>
        have hlt := hdecreasing root header parent hroot hp
        obtain ⟨r, hr⟩ := ih header.parentRoot parent hp (by omega)
        exact ⟨r, by simp only [ancestorLoop, gt_iff_lt, hgt, if_true, hp, hr]⟩
    · exact ⟨root, ancestorLoop_of_slot_le fg g slot (fuel + 1) root header (by omega)⟩

theorem Visits.steps_le (fg : ForkGraph G) (g : G) (slot : Nat)
    (hdecreasing : ∀ r header parent, fg.GetHeader g r = some header →
      fg.GetHeader g header.parentRoot = some parent → parent.slot < header.slot)
    (n : Nat) :
    ∀ (root : Hash) (header : BeaconBlockHeader) (r : Hash),
      fg.GetHeader g root = some header → Visits fg g slot root n r →
      n ≤ header.slot - slot := by
  induction n with
  | zero => intro _ _ _ _ _; exact Nat.zero_le _
  | succ n ih =>
    intro root header r hroot hv
    cases hv with
    | next _ header2 _ _ hroot2 hgt hrest =>
      rw [hroot] at hroot2
      cases hroot2
      cases hrest with
      | here => omega
      | next _ parent m _ hp hgt2 hrest2 =>
        have hlt := hdecreasing root header parent hroot hp
        have := ih header.parentRoot parent r hp (Visits.next _ parent m r hp hgt2 hrest2)
        omega

/-- C23: in a graph where every present header has a slot strictly greater than
that of its parent's header whenever the parent is present, `Ancestor root slot`
returns a result for every root and slot. When the header of `root` is missing
it returns at once; when it is present with slot `s0`, `s0 - slot` loop
iterations (0 when `slot` is not below `s0`) are enough fuel, and every walk of
the loop has at most `s0 - slot` iterations, each of which fetches one more
header: at most `(s0 - slot) + 1` headers are visited. -/
theorem Ancestor_terminates (fg : ForkGraph G) (f : ForkChoiceStore G)
    (hdecreasing : ∀ r header parent, fg.GetHeader f.forkGraph r = some header →
      fg.GetHeader f.forkGraph header.parentRoot = some parent → parent.slot < header.slot)
    (root : Hash) (slot : Nat) :
    (fg.GetHeader f.forkGraph root = none →
      ∀ fuel, Ancestor fg fuel f root slot = some zeroHash) ∧
    (∀ header, fg.GetHeader f.forkGraph root = some header →
      (∀ fuel, header.slot - slot ≤ fuel → ∃ r, Ancestor fg fuel f root slot = some r) ∧
      (∀ n r, Visits fg f.forkGraph slot root n r → n + 1 ≤ (header.slot - slot) + 1)) := by
  constructor
  · intro hroot fuel
    unfold Ancestor
    rw [hroot]
  · intro header hroot
    constructor
    · intro fuel hfuel
      unfold Ancestor
      rw [hroot]
      exact ancestorLoop_terminates fg f.forkGraph slot hdecreasing fuel root header hroot hfuel
    · intro n r hv
      exact Nat.succ_le_succ
        (Visits.steps_le fg f.forkGraph slot hdecreasing n root header r hroot hv)

theorem sample_slots_decreasing (r : Hash) (header parent : BeaconBlockHeader)
    (hr : memForkGraph.GetHeader sampleStore.forkGraph r = some header)
    (hp : memForkGraph.GetHeader sampleStore.forkGraph header.parentRoot = some parent) :
    parent.slot < header.slot := by
  simp only [memForkGraph, sampleStore, sampleGraph, List.lookup] at hr hp
  by_cases h13 : r = 13
  · subst h13
    simp at hr
    subst hr
    simp at hp
    subst hp
    decide
  · by_cases h12 : r = 12
    · subst h12
      simp at hr
      subst hr
      simp at hp
      subst hp
      decide
    · by_cases h11 : r = 11
      · subst h11
        simp at hr
        subst hr
        simp at hp
      · have e13 : (r == 13) = false := beq_false_of_ne h13
        have e12 : (r == 12) = false := beq_false_of_ne h12
        have e11 : (r == 11) = false := beq_false_of_ne h11
        simp only [e13, e12, e11] at hr
        cases hr

/-- C23, at the sample store, whose chain `13 → 12 → 11` has slots 3, 2, 1: the
walk from block `13` (slot 3) for slot 1 returns with fuel `3 - 1 = 2`, the
result being block `11`. -/
theorem Ancestor_terminates_sample :
    (∃ r, Ancestor memForkGraph 2 sampleStore 13 1 = some r) ∧
    Ancestor memForkGraph 2 sampleStore 13 1 = some 11 :=
  ⟨((Ancestor_terminates memForkGraph sampleStore sample_slots_decreasing 13 1).2
      ⟨3, 12, 0, 0⟩ (by decide)).1 2 (by decide),
    by decide⟩

end Forkchoice


namespace Misc

/-! ## Base fee: claims -/

theorem BigMax_eq_max (x y : Int) : BigMax x y = max x y := by
  unfold BigMax
  split_ifs with h
  · exact (max_eq_right (le_of_lt h)).symm
  · exact (max_eq_left (not_lt.mp h)).symm

theorem elasticity_ne_zero (p : ProtocolParams) (gasLimit : Nat)
    (h : 0 < gasLimit / p.ElasticityMultiplier) : p.ElasticityMultiplier ≠ 0 := by
  intro h0
  rw [h0, Nat.div_zero] at h
  exact Nat.lt_irrefl 0 h

/-- C17: for a parent at or after London whose gas target
`GasLimit / ElasticityMultiplier` is positive and equal to its `GasUsed`,
`CalcBaseFee` returns the parent's base fee. -/
theorem CalcBaseFee_at_target (p : ProtocolParams) (config : Config) (parent : Header)
    (baseFee : Int) (hlondon : config.IsLondon (Uint64 parent.Number) = true)
    (htarget : 0 < parent.GasLimit / p.ElasticityMultiplier)
    (hused : parent.GasUsed = parent.GasLimit / p.ElasticityMultiplier)
    (hfee : parent.BaseFee = some baseFee) :
    CalcBaseFee p config parent = .ok baseFee := by
  have hne := elasticity_ne_zero p parent.GasLimit htarget
  simp only [CalcBaseFee, hlondon, hne, hused, hfee]
  simp

/-- C17, at block 200 of the sample chain: gas limit 30000000, gas used
15000000 and base fee 1000 give base fee 1000. -/
theorem CalcBaseFee_at_target_sample :
    CalcBaseFee sampleParams sampleConfig ⟨200, 30000000, 15000000, some 1000⟩ = .ok 1000 :=
  CalcBaseFee_at_target sampleParams sampleConfig ⟨200, 30000000, 15000000, some 1000⟩ 1000
    (by decide) (by decide) (by decide) rfl

/-- C18: for a London parent with non-negative base fee `b`, positive gas
target `t = GasLimit / ElasticityMultiplier`, `GasUsed > t` and a positive
base-fee change denominator `d` for its block, `CalcBaseFee` returns
`b + max 1 (b * (GasUsed - t) / t / d)`, both divisions rounding down, and that
value is strictly greater than `b`. -/
theorem CalcBaseFee_above_target (p : ProtocolParams) (config : Config) (parent : Header)
    (baseFee : Int) (hlondon : config.IsLondon (Uint64 parent.Number) = true)
    (hfee : parent.BaseFee = some baseFee) (_hnonneg : 0 ≤ baseFee)
    (htarget : 0 < parent.GasLimit / p.ElasticityMultiplier)
    (hused : parent.GasLimit / p.ElasticityMultiplier < parent.GasUsed)
    (hdenominator : 0 < getBaseFeeChangeDenominator p config.Bor (Uint64 parent.Number)) :
    CalcBaseFee p config parent =
        .ok (baseFee + max 1
          (baseFee * ((parent.GasUsed - parent.GasLimit / p.ElasticityMultiplier : Nat) : Int)
            / ((parent.GasLimit / p.ElasticityMultiplier : Nat) : Int)
            / ((getBaseFeeChangeDenominator p config.Bor (Uint64 parent.Number) : Nat) : Int))) ∧
      baseFee < baseFee + max 1
          (baseFee * ((parent.GasUsed - parent.GasLimit / p.ElasticityMultiplier : Nat) : Int)
            / ((parent.GasLimit / p.ElasticityMultiplier : Nat) : Int)
            / ((getBaseFeeChangeDenominator p config.Bor (Uint64 parent.Number) : Nat) : Int)) := by
  have hne := elasticity_ne_zero p parent.GasLimit htarget
  have hne1 : parent.GasUsed ≠ parent.GasLimit / p.ElasticityMultiplier := Nat.ne_of_gt hused
  have ht : ((parent.GasLimit / p.ElasticityMultiplier : Nat) : Int) ≠ 0 := by
    exact_mod_cast Nat.pos_iff_ne_zero.mp htarget
  have hd : ((getBaseFeeChangeDenominator p config.Bor (Uint64 parent.Number) : Nat) : Int)
      ≠ 0 := by
    exact_mod_cast Nat.pos_iff_ne_zero.mp hdenominator
  constructor
  · simp only [CalcBaseFee, hlondon, hne, hne1, hfee, hused, bigDiv, ht, hd, BigMax_eq_max,
      max_comm]
    simp
  · have h1 : (1 : Int) ≤ max 1
        (baseFee * ((parent.GasUsed - parent.GasLimit / p.ElasticityMultiplier : Nat) : Int)
          / ((parent.GasLimit / p.ElasticityMultiplier : Nat) : Int)
          / ((getBaseFeeChangeDenominator p config.Bor (Uint64 parent.Number) : Nat) : Int)) :=
      le_max_left _ _
    omega

/-- C18, at block 200 of the sample chain: gas limit 30000000, gas used
30000000 and base fee 1000 give base fee 1125; with base fee 7 the increase is
the minimum 1. -/
theorem CalcBaseFee_above_target_sample :
    (CalcBaseFee sampleParams sampleConfig ⟨200, 30000000, 30000000, some 1000⟩ =
        .ok (1000 + max 1 (1000 * ((30000000 - 30000000 / 2 : Nat) : Int)
          / ((30000000 / 2 : Nat) : Int) / ((8 : Nat) : Int))) ∧
      (1000 : Int) + max 1 (1000 * ((30000000 - 30000000 / 2 : Nat) : Int)
          / ((30000000 / 2 : Nat) : Int) / ((8 : Nat) : Int)) = 1125) ∧
    CalcBaseFee sampleParams sampleConfig ⟨200, 30000000, 30000000, some 7⟩ = .ok 8 :=
  ⟨⟨(CalcBaseFee_above_target sampleParams sampleConfig ⟨200, 30000000, 30000000, some 1000⟩
      1000 (by decide) rfl (by decide) (by decide) (by decide) (by decide)).1, by decide⟩,
    (CalcBaseFee_above_target sampleParams sampleConfig ⟨200, 30000000, 30000000, some 7⟩
      7 (by decide) rfl (by decide) (by decide) (by decide) (by decide)).1⟩

/-- C19: for a London parent with non-negative base fee `b`, positive gas
target `t = GasLimit / ElasticityMultiplier`, `GasUsed < t` and a positive
base-fee change denominator `d` for its block, `CalcBaseFee` returns
`max 0 (b - b * (t - GasUsed) / t / d)`, both divisions rounding down, and that
value is at least 0 and at most `b`. -/
theorem CalcBaseFee_below_target (p : ProtocolParams) (config : Config) (parent : Header)
    (baseFee : Int) (hlondon : config.IsLondon (Uint64 parent.Number) = true)
    (hfee : parent.BaseFee = some baseFee) (hnonneg : 0 ≤ baseFee)
    (htarget : 0 < parent.GasLimit / p.ElasticityMultiplier)
    (hused : parent.GasUsed < parent.GasLimit / p.ElasticityMultiplier)
    (hdenominator : 0 < getBaseFeeChangeDenominator p config.Bor (Uint64 parent.Number)) :
    CalcBaseFee p config parent =
        .ok (max 0 (baseFee -
          baseFee * ((parent.GasLimit / p.ElasticityMultiplier - parent.GasUsed : Nat) : Int)
            / ((parent.GasLimit / p.ElasticityMultiplier : Nat) : Int)
            / ((getBaseFeeChangeDenominator p config.Bor (Uint64 parent.Number) : Nat) : Int))) ∧
      0 ≤ max 0 (baseFee -
          baseFee * ((parent.GasLimit / p.ElasticityMultiplier - parent.GasUsed : Nat) : Int)
            / ((parent.GasLimit / p.ElasticityMultiplier : Nat) : Int)
            / ((getBaseFeeChangeDenominator p config.Bor (Uint64 parent.Number) : Nat) : Int)) ∧
      max 0 (baseFee -
          baseFee * ((parent.GasLimit / p.ElasticityMultiplier - parent.GasUsed : Nat) : Int)
            / ((parent.GasLimit / p.ElasticityMultiplier : Nat) : Int)
            / ((getBaseFeeChangeDenominator p config.Bor (Uint64 parent.Number) : Nat) : Int))
        ≤ baseFee := by
  have hne := elasticity_ne_zero p parent.GasLimit htarget
  have hne1 : parent.GasUsed ≠ parent.GasLimit / p.ElasticityMultiplier := Nat.ne_of_lt hused
  have hnot : ¬ parent.GasUsed > parent.GasLimit / p.ElasticityMultiplier := by omega
  have ht : ((parent.GasLimit / p.ElasticityMultiplier : Nat) : Int) ≠ 0 := by
    exact_mod_cast Nat.pos_iff_ne_zero.mp htarget
  have hd : ((getBaseFeeChangeDenominator p config.Bor (Uint64 parent.Number) : Nat) : Int)
      ≠ 0 := by
    exact_mod_cast Nat.pos_iff_ne_zero.mp hdenominator
  have hdelta : 0 ≤
      baseFee * ((parent.GasLimit / p.ElasticityMultiplier - parent.GasUsed : Nat) : Int)
        / ((parent.GasLimit / p.ElasticityMultiplier : Nat) : Int)
        / ((getBaseFeeChangeDenominator p config.Bor (Uint64 parent.Number) : Nat) : Int) :=
    Int.ediv_nonneg
      (Int.ediv_nonneg (Int.mul_nonneg hnonneg (Int.ofNat_nonneg _)) (Int.ofNat_nonneg _))
      (Int.ofNat_nonneg _)
  refine ⟨?_, le_max_left _ _, max_le hnonneg (by omega)⟩
  simp only [CalcBaseFee, hlondon, hne, hne1, hnot, hfee, bigDiv, ht, hd, BigMax_eq_max,
    max_comm]
  simp

/-- C19, at block 200 of the sample chain: gas limit 30000000, gas used 0 and
base fee 1000 give base fee 875. -/
theorem CalcBaseFee_below_target_sample :
    CalcBaseFee sampleParams sampleConfig ⟨200, 30000000, 0, some 1000⟩ =
        .ok (max 0 (1000 - 1000 * ((30000000 / 2 - 0 : Nat) : Int)
          / ((30000000 / 2 : Nat) : Int) / ((8 : Nat) : Int))) ∧
      max 0 ((1000 : Int) - 1000 * ((30000000 / 2 - 0 : Nat) : Int)
          / ((30000000 / 2 : Nat) : Int) / ((8 : Nat) : Int)) = 875 :=
  ⟨(CalcBaseFee_below_target sampleParams sampleConfig ⟨200, 30000000, 0, some 1000⟩
      1000 (by decide) rfl (by decide) (by decide) (by decide) (by decide)).1, by decide⟩

/-- C20: for a parent before London, `CalcBaseFee` returns `InitialBaseFee`,
whatever the parent's gas limit, gas used and base fee (nil included) are. -/
theorem CalcBaseFee_before_london (p : ProtocolParams) (config : Config) (parent : Header)
    (hlondon : config.IsLondon (Uint64 parent.Number) = false) :
    CalcBaseFee p config parent = .ok (p.InitialBaseFee : Int) := by
  simp [CalcBaseFee, hlondon]

/-- C20, at block 50 of the sample chain, before London at block 100: a parent
without base fee gives the initial base fee. -/
theorem CalcBaseFee_before_london_sample :
    CalcBaseFee sampleParams sampleConfig ⟨50, 30000000, 29000000, none⟩ = .ok 1000000000 :=
  CalcBaseFee_before_london sampleParams sampleConfig ⟨50, 30000000, 29000000, none⟩
    (by decide)

/-! ## Header verification and division by zero: claims -/

/-- C21: with `skipGasLimit = true`, `VerifyEip1559Header` returns the nil error
exactly when the header's base fee is present and equal to the value that
`CalcBaseFee` returns for the parent; a missing base fee is rejected with the
missing-base-fee error, and a present base fee that differs from the value
`CalcBaseFee` returns is rejected with the invalid-base-fee error. Neither
outcome depends on the gas-limit check. -/
theorem VerifyEip1559Header_skipGasLimit (p : ProtocolParams)
    (VerifyGaslimit : Nat → Nat → Option String) (config : Config) (parent header : Header) :
    (VerifyEip1559Header p VerifyGaslimit config parent header true = .ok none ↔
      ∃ baseFee, header.BaseFee = some baseFee ∧ CalcBaseFee p config parent = .ok baseFee) ∧
    (header.BaseFee = none →
      VerifyEip1559Header p VerifyGaslimit config parent header true =
        .ok (some HeaderError.missingBaseFee)) ∧
    (∀ baseFee expected, header.BaseFee = some baseFee →
      CalcBaseFee p config parent = .ok expected → baseFee ≠ expected →
      VerifyEip1559Header p VerifyGaslimit config parent header true =
        .ok (some (HeaderError.invalidBaseFee baseFee expected parent.BaseFee
          parent.GasUsed))) := by
  refine ⟨?_, ?_, ?_⟩
  · cases hfee : header.BaseFee with
    | none => simp [VerifyEip1559Header, hfee]
    | some baseFee =>
      cases hcalc : CalcBaseFee p config parent with
      | error e => simp [VerifyEip1559Header, hfee, hcalc]
      | ok expected =>
        by_cases heq : baseFee = expected
        · simp [VerifyEip1559Header, hfee, hcalc, heq]
        · simp only [VerifyEip1559Header, hfee, hcalc, ne_eq, heq, not_false_eq_true, if_true]
          simp only [Bool.not_true, Bool.false_eq_true, if_false]
          constructor
          · intro h
            cases h
          · rintro ⟨b, hb, hcb⟩
            cases hb
            cases hcb
            exact absurd rfl heq
  · intro hfee
    simp [VerifyEip1559Header, hfee]
  · intro baseFee expected hfee hcalc hne
    simp [VerifyEip1559Header, hfee, hcalc, hne]

/-- C21, at block 200 of the sample chain, whose parent (gas limit 30000000,
gas used 30000000, base fee 1000) has expected base fee 1125: a header with
base fee 1125 is accepted, a header without base fee and a header with base
fee 1000 are rejected, whatever the gas-limit check says. -/
theorem VerifyEip1559Header_skipGasLimit_sample :
    VerifyEip1559Header sampleParams (fun _ _ => some "invalid gas limit") sampleConfig
        ⟨200, 30000000, 30000000, some 1000⟩ ⟨201, 30000000, 0, some 1125⟩ true = .ok none ∧
    VerifyEip1559Header sampleParams (fun _ _ => some "invalid gas limit") sampleConfig
        ⟨200, 30000000, 30000000, some 1000⟩ ⟨201, 30000000, 0, none⟩ true =
      .ok (some HeaderError.missingBaseFee) ∧
    VerifyEip1559Header sampleParams (fun _ _ => some "invalid gas limit") sampleConfig
        ⟨200, 30000000, 30000000, some 1000⟩ ⟨201, 30000000, 0, some 1000⟩ true =
      .ok (some (HeaderError.invalidBaseFee 1000 1125 (some 1000) 30000000)) :=
  ⟨(VerifyEip1559Header_skipGasLimit sampleParams _ sampleConfig
      ⟨200, 30000000, 30000000, some 1000⟩ ⟨201, 30000000, 0, some 1125⟩).1.mpr
      ⟨1125, rfl, rfl⟩,
    (VerifyEip1559Header_skipGasLimit sampleParams _ sampleConfig
      ⟨200, 30000000, 30000000, some 1000⟩ ⟨201, 30000000, 0, none⟩).2.1 rfl,
    (VerifyEip1559Header_skipGasLimit sampleParams _ sampleConfig
      ⟨200, 30000000, 30000000, some 1000⟩ ⟨201, 30000000, 0, some 1000⟩).2.2
      1000 1125 rfl rfl (by decide)⟩

/-- C24: for a London parent and a positive `ElasticityMultiplier`: when
`GasLimit ≥ ElasticityMultiplier` and the base-fee change denominator of the
block is positive, `CalcBaseFee` does not end in a division by zero; when
`GasLimit < ElasticityMultiplier` (gas target 0), `GasUsed > 0` and the base fee
is present, `CalcBaseFee` ends in a division by zero. -/
theorem CalcBaseFee_division_by_zero (p : ProtocolParams) (config : Config) (parent : Header)
    (hlondon : config.IsLondon (Uint64 parent.Number) = true)
    (hmultiplier : 0 < p.ElasticityMultiplier) :
    (p.ElasticityMultiplier ≤ parent.GasLimit →
      0 < getBaseFeeChangeDenominator p config.Bor (Uint64 parent.Number) →
      CalcBaseFee p config parent ≠ .error Panic.divisionByZero) ∧
    (parent.GasLimit < p.ElasticityMultiplier → 0 < parent.GasUsed →
      ∀ baseFee, parent.BaseFee = some baseFee →
      CalcBaseFee p config parent = .error Panic.divisionByZero) := by
  have hne : p.ElasticityMultiplier ≠ 0 := Nat.pos_iff_ne_zero.mp hmultiplier
  constructor
  · intro hlimit hdenominator
    have htarget : 0 < parent.GasLimit / p.ElasticityMultiplier :=
      Nat.div_pos hlimit hmultiplier
    have ht : ((parent.GasLimit / p.ElasticityMultiplier : Nat) : Int) ≠ 0 := by
      exact_mod_cast Nat.pos_iff_ne_zero.mp htarget
    have hd : ((getBaseFeeChangeDenominator p config.Bor (Uint64 parent.Number) : Nat) : Int)
        ≠ 0 := by
      exact_mod_cast Nat.pos_iff_ne_zero.mp hdenominator
    simp only [CalcBaseFee, hlondon, hne, bigDiv, ht, hd]
    cases hfee : parent.BaseFee with
    | none => simp
    | some baseFee => simp; split_ifs <;> simp
  · intro hlimit hused baseFee hfee
    have htarget : parent.GasLimit / p.ElasticityMultiplier = 0 :=
      Nat.div_eq_of_lt hlimit
    have hne1 : parent.GasUsed ≠ 0 := Nat.pos_iff_ne_zero.mp hused
    simp [CalcBaseFee, hlondon, hne, htarget, hne1, hused, hfee, bigDiv]

/-- C24, at block 200 of the sample chain, with elasticity multiplier 2: the
parent with gas limit 30000000 does not end in a division by zero, and the
parent with gas limit 1 (gas target 0), gas used 5 and base fee 1000 does. -/
theorem CalcBaseFee_division_by_zero_sample :
    CalcBaseFee sampleParams sampleConfig ⟨200, 30000000, 30000000, some 1000⟩ ≠
      .error Panic.divisionByZero ∧
    ((1 : Nat) / sampleParams.ElasticityMultiplier = 0 ∧
      CalcBaseFee sampleParams sampleConfig ⟨200, 1, 5, some 1000⟩ =
        .error Panic.divisionByZero) :=
  ⟨(CalcBaseFee_division_by_zero sampleParams sampleConfig
      ⟨200, 30000000, 30000000, some 1000⟩ (by decide) (by decide)).1 (by decide) (by decide),
    by decide,
    (CalcBaseFee_division_by_zero sampleParams sampleConfig ⟨200, 1, 5, some 1000⟩
      (by decide) (by decide)).2 (by decide) (by decide) 1000 rfl⟩

end Misc
